import Mathlib


/-!
Formal model of the hive-plugin synchronization core.

This file gives a shallow embedding, in Lean 4, of the parts of the
plugin that the specification's claims are about:

* the structured-document (canvas) merge engine
  (`canonicalizeCanvasModel`, `parseCanvasModel`, `serializeCanvasModel`,
  `resolveEntity`, `mergeEntities`, `mergeCanvasModels`);
* the offline operation queue (`OfflineQueue.enqueue`);
* the path policy filters (`Policy.isAllowed`, `PolicySync.isAllowed`,
  `Policy.isMetadataAllowedPath`);
* the sync engine's reconciliation pass (`Sync.initialSync`) and the
  spec-described skip-set variant (`Sync.initialSyncSkip`);
* the write interceptor's modify handlers (`WI.onModify` — the
  optimistic-concurrency variant, and `WIQ.onModify` — the
  offline-queue variant).

JavaScript runtime values are modelled by the inductive `JsVal`;
JavaScript objects are association lists in property-insertion order,
exactly mirroring the semantics the engine relies on (property reads
find the first matching key, property writes replace in place or append,
object spread processes entries left to right, `Map` iteration follows
key-insertion order, `Array.prototype.sort` is stable).  JSON numbers
are modelled by `Int` (the sources only ever use integral timestamps),
and `String.prototype.localeCompare` is modelled by code-point order.
The host runtime's `JSON.parse`/`JSON.stringify` pair is inverse on the
values it round-trips, so the textual boundary of the canvas engineis
modelled by the parsed value: a serialized document is represented by
the `JsVal` its text denotes, and possibly-invalid input text by
`Option JsVal` with `none` standing for blank or malformed text.
`JSON.stringify` of an entity (used by `resolveEntity` as a
deterministic tie-break) is modelled executably by `stringify`.
-/

/-- A JavaScript/JSON runtime value.  Objects are association lists in
property-insertion order; `num` carries an `Int` (the engine only uses
integral numbers). -/
inductive JsVal : Type where
  | null : JsVal
  | bool : Bool → JsVal
  | num : Int → JsVal
  | str : String → JsVal
  | arr : List JsVal → JsVal
  | obj : List (String × JsVal) → JsVal

mutual
/-- Decidable equality for `JsVal` (hand-rolled because the inductive
nests `List`). -/
def jsDecEq : (a b : JsVal) → Decidable (a = b)
  | .null, .null => isTrue rfl
  | .bool x, .bool y =>
    match decEq x y with
    | isTrue h => isTrue (by rw [h])
    | isFalse h => isFalse (fun hh => h (JsVal.bool.inj hh))
  | .num x, .num y =>
    match decEq x y with
    | isTrue h => isTrue (by rw [h])
    | isFalse h => isFalse (fun hh => h (JsVal.num.inj hh))
  | .str x, .str y =>
    match decEq x y with
    | isTrue h => isTrue (by rw [h])
    | isFalse h => isFalse (fun hh => h (JsVal.str.inj hh))
  | .arr xs, .arr ys =>
    match jsListDecEq xs ys with
    | isTrue h => isTrue (by rw [h])
    | isFalse h => isFalse (fun hh => h (JsVal.arr.inj hh))
  | .obj xs, .obj ys =>
    match jsObjDecEq xs ys with
    | isTrue h => isTrue (by rw [h])
    | isFalse h => isFalse (fun hh => h (JsVal.obj.inj hh))
  | .null, .bool _ => isFalse (fun h => JsVal.noConfusion h)
  | .null, .num _ => isFalse (fun h => JsVal.noConfusion h)
  | .null, .str _ => isFalse (fun h => JsVal.noConfusion h)
  | .null, .arr _ => isFalse (fun h => JsVal.noConfusion h)
  | .null, .obj _ => isFalse (fun h => JsVal.noConfusion h)
  | .bool _, .null => isFalse (fun h => JsVal.noConfusion h)
  | .bool _, .num _ => isFalse (fun h => JsVal.noConfusion h)
  | .bool _, .str _ => isFalse (fun h => JsVal.noConfusion h)
  | .bool _, .arr _ => isFalse (fun h => JsVal.noConfusion h)
  | .bool _, .obj _ => isFalse (fun h => JsVal.noConfusion h)
  | .num _, .null => isFalse (fun h => JsVal.noConfusion h)
  | .num _, .bool _ => isFalse (fun h => JsVal.noConfusion h)
  | .num _, .str _ => isFalse (fun h => JsVal.noConfusion h)
  | .num _, .arr _ => isFalse (fun h => JsVal.noConfusion h)
  | .num _, .obj _ => isFalse (fun h => JsVal.noConfusion h)
  | .str _, .null => isFalse (fun h => JsVal.noConfusion h)
  | .str _, .bool _ => isFalse (fun h => JsVal.noConfusion h)
  | .str _, .num _ => isFalse (fun h => JsVal.noConfusion h)
  | .str _, .arr _ => isFalse (fun h => JsVal.noConfusion h)
  | .str _, .obj _ => isFalse (fun h => JsVal.noConfusion h)
  | .arr _, .null => isFalse (fun h => JsVal.noConfusion h)
  | .arr _, .bool _ => isFalse (fun h => JsVal.noConfusion h)
  | .arr _, .num _ => isFalse (fun h => JsVal.noConfusion h)
  | .arr _, .str _ => isFalse (fun h => JsVal.noConfusion h)
  | .arr _, .obj _ => isFalse (fun h => JsVal.noConfusion h)
  | .obj _, .null => isFalse (fun h => JsVal.noConfusion h)
  | .obj _, .bool _ => isFalse (fun h => JsVal.noConfusion h)
  | .obj _, .num _ => isFalse (fun h => JsVal.noConfusion h)
  | .obj _, .str _ => isFalse (fun h => JsVal.noConfusion h)
  | .obj _, .arr _ => isFalse (fun h => JsVal.noConfusion h)

/-- Decidable equality for lists of `JsVal`. -/
def jsListDecEq : (a b : List JsVal) → Decidable (a = b)
  | [], [] => isTrue rfl
  | [], _ :: _ => isFalse (fun h => List.noConfusion h)
  | _ :: _, [] => isFalse (fun h => List.noConfusion h)
  | x :: xs, y :: ys =>
    match jsDecEq x y, jsListDecEq xs ys with
    | isTrue h1, isTrue h2 => isTrue (by rw [h1, h2])
    | isFalse h1, _ => isFalse (fun hh => h1 (by injection hh))
    | _, isFalse h2 => isFalse (fun hh => h2 (by injection hh))

/-- Decidable equality for object entry lists. -/
def jsObjDecEq : (a b : List (String × JsVal)) → Decidable (a = b)
  | [], [] => isTrue rfl
  | [], _ :: _ => isFalse (fun h => List.noConfusion h)
  | _ :: _, [] => isFalse (fun h => List.noConfusion h)
  | (k1, v1) :: xs, (k2, v2) :: ys =>
    match decEq k1 k2, jsDecEq v1 v2, jsObjDecEq xs ys with
    | isTrue h1, isTrue h2, isTrue h3 => isTrue (by rw [h1, h2, h3])
    | isFalse h1, _, _ => isFalse (fun hh => by
        injection hh with hp _
        exact h1 (congrArg Prod.fst hp))
    | _, isFalse h2, _ => isFalse (fun hh => by
        injection hh with hp _
        exact h2 (congrArg Prod.snd hp))
    | _, _, isFalse h3 => isFalse (fun hh => by injection hh; contradiction)
end

instance : DecidableEq JsVal := jsDecEq

/-- JavaScript truthiness of a value. -/
def truthy : JsVal → Bool
  | .null => false
  | .bool b => b
  | .num n => n != 0
  | .str s => s != ""
  | .arr _ => true
  | .obj _ => true

/-- Truthiness of a possibly-absent property (`undefined` is falsy). -/
def truthyOpt : Option JsVal → Bool
  | none => false
  | some v => truthy v

/-- Property read on an association list: the first matching key wins
(JavaScript objects never hold duplicate keys, so on well-formed data
this is exact). -/
def jget {α : Type} : List (String × α) → String → Option α
  | [], _ => none
  | (k, v) :: rest, key => if k = key then some v else jget rest key

/-- Property write on an association list: replace the first matching
key in place, or append — exactly `o[key] = v` / `Map.set`. -/
def jset {α : Type} : List (String × α) → String → α → List (String × α)
  | [], key, v => [(key, v)]
  | (k, w) :: rest, key, v =>
    if k = key then (k, v) :: rest else (k, w) :: jset rest key v

/-- An object literal built by processing entries left to right
(`\x7b ...base, ...incoming \x7d` is `objLit (base ++ incoming)`). -/
def objLit (entries : List (String × JsVal)) : List (String × JsVal) :=
  entries.foldl (fun acc kv => jset acc kv.1 kv.2) []

/-- Property read on a value (non-objects have no named properties). -/
def getField (v : JsVal) (key : String) : Option JsVal :=
  match v with
  | .obj kvs => jget kvs key
  | _ => none

/-- Code-point comparison of character lists; this models the total
order that `String.prototype.localeCompare` realises on the engine's
inputs. -/
def listStrLe : List Char → List Char → Bool
  | [], _ => true
  | _ :: _, [] => false
  | a :: as, b :: bs =>
    if a.toNat < b.toNat then true
    else if b.toNat < a.toNat then false
    else listStrLe as bs

/-- String comparison used for `localeCompare`-based ordering:
`strLe s t` says `s.localeCompare(t) <= 0`. -/
def strLe (s t : String) : Bool := listStrLe s.data t.data

/-- JSON string escaping for the common escapes (`JSON.stringify`
semantics on the characters the engine manipulates). -/
def escChar (c : Char) : String :=
  if c = '"' then "\\\""
  else if c = '\\' then "\\\\"
  else if c = '\n' then "\\n"
  else if c = '\t' then "\\t"
  else if c = '\r' then "\\r"
  else String.singleton c

/-- JSON escaping of a whole string. -/
def jsonEscape (s : String) : String := String.join (s.data.map escChar)

mutual
/-- Compact `JSON.stringify` of a value (used by `resolveEntity` as the
deterministic tie-break on equal timestamps). -/
def stringify : JsVal → String
  | .null => "null"
  | .bool b => if b then "true" else "false"
  | .num n => toString n
  | .str s => "\"" ++ jsonEscape s ++ "\""
  | .arr xs => "[" ++ stringifyElems xs ++ "]"
  | .obj kvs => "\x7b" ++ stringifyKvs kvs ++ "\x7d"

/-- Comma-separated rendering of array elements. -/
def stringifyElems : List JsVal → String
  | [] => ""
  | [x] => stringify x
  | x :: y :: xs => stringify x ++ "," ++ stringifyElems (y :: xs)

/-- Comma-separated rendering of object entries. -/
def stringifyKvs : List (String × JsVal) → String
  | [] => ""
  | [(k, v)] => "\"" ++ jsonEscape k ++ "\":" ++ stringify v
  | (k, v) :: y :: xs =>
    "\"" ++ jsonEscape k ++ "\":" ++ stringify v ++ "," ++ stringifyKvs (y :: xs)
end

namespace Canvas

/-- The `id` of a canvas entity (`entity.id`; entities flowing through
the merge are canonicalized, so the property is a string). -/
def eid (e : JsVal) : String :=
  match getField e "id" with
  | some (.str s) => s
  | _ => ""

/-- The entity's timestamp with the source's default:
`typeof e.updatedAt === 'number' ? e.updatedAt : 0`. -/
def updatedAtOf (e : JsVal) : Int :=
  match getField e "updatedAt" with
  | some (.num n) => n
  | _ => 0

/-- Truthiness of the entity's `deleted` flag. -/
def deletedOf (e : JsVal) : Bool := truthyOpt (getField e "deleted")

/-- Does an optional property hold a number? -/
def isNumOpt : Option JsVal → Bool
  | some (.num _) => true
  | _ => false

/-- The `updatedAt` defaulting step of `normalizeEntity`:
`if (typeof normalized.updatedAt !== 'number') normalized.updatedAt = 0`. -/
def entityWithTs (kvs : List (String × JsVal)) : List (String × JsVal) :=
  if isNumOpt (jget kvs "updatedAt") then kvs else jset kvs "updatedAt" (.num 0)

/-- The `deleted` coercion step of `normalizeEntity`:
`normalized.deleted = Boolean(normalized.deleted)`. -/
def entityWithDel (kvs : List (String × JsVal)) : List (String × JsVal) :=
  jset kvs "deleted" (.bool (truthyOpt (jget kvs "deleted")))

/-- `normalizeEntity` from `canvasModel.ts`: reject non-objects and
entities without a non-empty string `id`; copy the entity, default a
non-numeric `updatedAt` to `0`, and coerce `deleted` to a boolean. -/
def normalizeEntity (e : JsVal) : Option JsVal :=
  match e with
  | .obj kvs =>
    match jget kvs "id" with
    | some (.str s) =>
      if s = "" then none
      else some (.obj (entityWithDel (entityWithTs kvs)))
    | _ => none
  | _ => none

/-- `normalizeEntities`: a non-array yields `[]`; otherwise keep the
normalizable entities in order. -/
def normalizeEntities (v : Option JsVal) : List JsVal :=
  match v with
  | some (.arr xs) => xs.filterMap normalizeEntity
  | _ => []

/-- The `stableEntitySort` comparator as a total precedence:
`entLe a b` holds when `a.id.localeCompare(b.id) <= 0`, i.e. when the
stable sort keeps `a` before `b`. -/
def entLe (a b : JsVal) : Bool := strLe (eid a) (eid b)

/-- Stable insertion used by `sortEntities`. -/
def insertEnt (x : JsVal) : List JsVal → List JsVal
  | [] => [x]
  | y :: ys => if entLe x y then x :: y :: ys else y :: insertEnt x ys

/-- The stable ascending-id sort `.sort(stableEntitySort)`
(`Array.prototype.sort` is stable; a stable sort is unique, and this
insertion sort computes it). -/
def sortEntities : List JsVal → List JsVal
  | [] => []
  | x :: xs => insertEnt x (sortEntities xs)

/-- The entry list of `\x7b ...input \x7d` for a value that passed the
`typeof input === 'object' && input` guard: objects copy their entries,
arrays spread to index-keyed entries. -/
def spreadKvs (input : JsVal) : List (String × JsVal) :=
  match input with
  | .obj kvs => kvs
  | .arr xs => xs.enum.map (fun p => (toString p.1, p.2))
  | _ => []

/-- The model copy made by `canonicalizeCanvasModel`:
`typeof input === 'object' && input ? \x7b ...input \x7d : \x7b nodes: [], edges: [] \x7d`. -/
def rawKvs (input : JsVal) : List (String × JsVal) :=
  match input with
  | .obj l => spreadKvs (.obj l)
  | .arr l => spreadKvs (.arr l)
  | _ => [("nodes", .arr []), ("edges", .arr [])]

/-- One reassignment of `canonicalizeCanvasModel`:
`model[key] = normalizeEntities(model[key]).sort(stableEntitySort)`. -/
def canonStep (kvs : List (String × JsVal)) (key : String) : List (String × JsVal) :=
  jset kvs key (.arr (sortEntities (normalizeEntities (jget kvs key))))

/-- The entry list of the canonical model: the copy with `nodes` and
then `edges` reassigned to sorted normalized entity arrays. -/
def canonKvs (input : JsVal) : List (String × JsVal) :=
  canonStep (canonStep (rawKvs input) "nodes") "edges"

/-- `canonicalizeCanvasModel`: coerce non-objects to an empty model,
then rebuild `nodes` and `edges` as sorted lists of normalized
entities. -/
def canonicalizeCanvasModel (input : JsVal) : JsVal :=
  .obj (canonKvs input)

/-- `parseCanvasModel`: the textual argument is represented by the
value its JSON text denotes (`none` for blank or malformed text, which
the source maps to the empty canonical model). -/
def parseCanvasModel (raw : Option JsVal) : JsVal :=
  match raw with
  | some v => canonicalizeCanvasModel v
  | none => canonicalizeCanvasModel (.obj [("nodes", .arr []), ("edges", .arr [])])

/-- `serializeCanvasModel` canonicalizes and emits the canonical
model's JSON text; since the runtime's `JSON.parse` inverts
`JSON.stringify`, the emitted text is represented by the canonical value
it denotes. -/
def serializeCanvasModel (input : JsVal) : JsVal :=
  canonicalizeCanvasModel input

/-- `resolveEntity` from `canvasModel.ts`: tombstones beat concurrent
live updates, a strictly newer live entity resurrects a tombstone,
otherwise the greater timestamp wins, with a serialized-form tie-break
(`incomingStr.localeCompare(baseStr) >= 0 ? incoming : base`). -/
def resolveEntity (base : Option JsVal) (incoming : JsVal) : JsVal :=
  match base with
  | none => incoming
  | some b =>
    if deletedOf incoming && !deletedOf b then incoming
    else if deletedOf b && !deletedOf incoming then
      if updatedAtOf incoming > updatedAtOf b then incoming else b
    else if updatedAtOf incoming > updatedAtOf b then incoming
    else if updatedAtOf incoming < updatedAtOf b then b
    else if strLe (stringify b) (stringify incoming) then incoming else b

/-- The first loop of `mergeEntities`: `byId.set(e.id, e)` for each base
entity, into a `Map` modelled as an insertion-ordered association
list. -/
def fillBase (m : List (String × JsVal)) (es : List JsVal) : List (String × JsVal) :=
  es.foldl (fun m e => jset m (eid e) e) m

/-- The second loop of `mergeEntities`:
`byId.set(e.id, resolveEntity(byId.get(e.id) ?? null, e))`. -/
def fillIncoming (m : List (String × JsVal)) (es : List JsVal) : List (String × JsVal) :=
  es.foldl (fun m e => jset m (eid e) (resolveEntity (jget m (eid e)) e)) m

/-- `mergeEntities`: union by id with `resolveEntity` on collisions,
then `[...byId.values()].sort(stableEntitySort)`. -/
def mergeEntities (base incoming : List JsVal) : List JsVal :=
  sortEntities ((fillIncoming (fillBase [] base) incoming).map Prod.snd)

/-- The `nodes` list of a model value. -/
def nodesOf (m : JsVal) : List JsVal :=
  match getField m "nodes" with
  | some (.arr l) => l
  | _ => []

/-- The `edges` list of a model value. -/
def edgesOf (m : JsVal) : List JsVal :=
  match getField m "edges" with
  | some (.arr l) => l
  | _ => []

/-- The entry list of an object value. -/
def kvsOf (m : JsVal) : List (String × JsVal) :=
  match m with
  | .obj l => l
  | _ => []

/-- The canonicalized `nodes` set of a document (`base.nodes` after
`canonicalizeCanvasModel(baseInput)`). -/
def canonNodes (x : JsVal) : List JsVal := nodesOf (canonicalizeCanvasModel x)

/-- The canonicalized `edges` set of a document. -/
def canonEdges (x : JsVal) : List JsVal := edgesOf (canonicalizeCanvasModel x)

/-- `mergeCanvasModels`: canonicalize both inputs and build
`\x7b ...base, ...incoming, nodes: mergeEntities(..), edges:
mergeEntities(..) \x7d` (the spreads process the two canonical entry
lists left to right, then the literal's own `nodes` and `edges`
assignments overwrite in place). -/
def mergeCanvasModels (a b : JsVal) : JsVal :=
  .obj (jset
    (jset (objLit (kvsOf (canonicalizeCanvasModel a) ++ kvsOf (canonicalizeCanvasModel b)))
      "nodes" (.arr (mergeEntities (canonNodes a) (canonNodes b))))
    "edges" (.arr (mergeEntities (canonEdges a) (canonEdges b))))
end Canvas

/-! ### Association-list lemmas -/

/-- The key list of an association list. -/
def akeys {α : Type} (m : List (String × α)) : List String := m.map Prod.fst

namespace Canvas

/-- The entry list of a model with its `nodes`/`edges` values blanked:
two models agree outside their entity sets exactly when their masked
entry lists coincide. -/
def maskNE (kvs : List (String × JsVal)) : List (String × JsVal) :=
  kvs.map (fun kv => if kv.1 = "nodes" ∨ kv.1 = "edges" then (kv.1, .null) else kv)

/-- The per-id side condition under which the pairwise resolution is
symmetric: equal-timestamp ties are serialization-distinguishable, and
neither side holds a tombstone that the other outruns with a strictly
newer live entity. -/
def pairCond (e1 e2 : JsVal) : Prop :=
  (deletedOf e1 = deletedOf e2 → updatedAtOf e1 = updatedAtOf e2 →
    stringify e1 = stringify e2 → e1 = e2)
  ∧ (deletedOf e1 = true → deletedOf e2 = false → updatedAtOf e2 ≤ updatedAtOf e1)
  ∧ (deletedOf e2 = true → deletedOf e1 = false → updatedAtOf e1 ≤ updatedAtOf e2)

instance (e1 e2 : JsVal) : Decidable (pairCond e1 e2) := by
  unfold pairCond
  infer_instance
end Canvas

/-- A tombstone entity for id `x` with timestamp 0. -/
def tombEnt : JsVal :=
  .obj [("id", .str "x"), ("updatedAt", .num 0), ("deleted", .bool true)]

/-- A live entity for id `x` with the strictly newer timestamp 5. -/
def liveEnt : JsVal :=
  .obj [("id", .str "x"), ("updatedAt", .num 5), ("deleted", .bool false)]

/-- A live entity for id `x` with timestamp 9 and an extra field. -/
def liveEnt9 : JsVal :=
  .obj [("id", .str "x"), ("updatedAt", .num 9), ("deleted", .bool false), ("label", .str "B")]

/-- A document holding only the tombstone. -/
def tombDoc : JsVal := .obj [("nodes", .arr [tombEnt]), ("edges", .arr [])]

/-- A document holding only the newer live entity. -/
def liveDoc : JsVal := .obj [("nodes", .arr [liveEnt]), ("edges", .arr [])]

/-- A document holding only the still newer live entity. -/
def liveDoc9 : JsVal := .obj [("nodes", .arr [liveEnt9]), ("edges", .arr [])]

/-- A document whose node set carries two distinct entities with the
same id (canonicalization keeps both; merging collapses them). -/
def dupDoc : JsVal :=
  .obj [("nodes", .arr
    [.obj [("id", .str "x"), ("updatedAt", .num 0), ("deleted", .bool false)],
     .obj [("id", .str "x"), ("updatedAt", .num 0), ("deleted", .bool false), ("v", .num 1)]]),
  ("edges", .arr [])]

/-- The spec's delete-wins example entities: a tombstone at t=100. -/
def n1tomb100 : JsVal :=
  .obj [("id", .str "n1"), ("updatedAt", .num 100), ("deleted", .bool true)]

/-- The spec's delete-wins example entities: a live entity at t=90. -/
def n1live90 : JsVal :=
  .obj [("id", .str "n1"), ("updatedAt", .num 90), ("deleted", .bool false)]

/-! ### Offline queue (`offlineQueue.ts`) -/

/-- A queued offline operation, as in `offlineQueue.ts`:
`modify`/`create` carry content, `delete` a path, `rename` both
paths. -/
inductive QueuedOp : Type where
  | modify (path content : String)
  | create (path content : String)
  | delete (path : String)
  | rename (oldPath newPath : String)
  deriving DecidableEq

namespace OfflineQueue

/-- The coalescing predicate of `enqueue`:
`(o.type === 'modify' || o.type === 'create') && o.path === op.path`. -/
def mcSamePath (p : String) : QueuedOp → Bool
  | .modify q _ => q == p
  | .create q _ => q == p
  | _ => false

/-- `Array.prototype.findIndex` specialized to the coalescing
predicate. -/
def findMCIdx (p : String) : List QueuedOp → Option Nat
  | [] => none
  | o :: rest => if mcSamePath p o then some 0 else (findMCIdx p rest).map (· + 1)

/-- `OfflineQueue.enqueue`: a `modify`/`create` replaces an existing
`modify`/`create` for the same path in its original queue position;
everything else is appended. -/
def enqueue (ops : List QueuedOp) (op : QueuedOp) : List QueuedOp :=
  match op with
  | .modify p _ | .create p _ =>
    match findMCIdx p ops with
    | some i => ops.set i op
    | none => ops ++ [op]
  | _ => ops ++ [op]

/-- `OfflineQueue.getAffectedPaths`: the paths touched by the queue
(both names of a rename). -/
def getAffectedPaths (ops : List QueuedOp) : List String :=
  ops.foldl (fun acc op =>
    match op with
    | .rename o n => acc ++ [o, n]
    | .modify p _ => acc ++ [p]
    | .create p _ => acc ++ [p]
    | .delete p => acc ++ [p]) []
end OfflineQueue

/-! ### Path policy (`syncEngine.ts` variants and `metadataPolicy.ts`) -/

/-- Does the character list `d` begin the character list `s`?
(`String.prototype.startsWith` on code points.) -/
def leading : List Char → List Char → Bool
  | [], _ => true
  | _ :: _, [] => false
  | a :: as, b :: bs => a = b && leading as bs

/-- `path.startsWith(d)`. -/
def hasStart (path d : String) : Bool := leading d.data path.data

/-- The suffix of `cs` beginning at its last dot, if any
(`path.slice(path.lastIndexOf('.'))`). -/
def extFrom : List Char → Option (List Char)
  | [] => none
  | c :: rest =>
    match extFrom rest with
    | some e => some e
    | none => if c = '.' then some (c :: rest) else none

namespace Policy

/-- The explicitly allow-listed metadata file paths
(`SAFE_METADATA_ALLOWLIST` in `metadataPolicy.ts`). -/
def SAFE_METADATA_DEFAULTS : List String :=
  [".obsidian/appearance.json",
   ".obsidian/community-plugins.json",
   ".obsidian/core-plugins.json",
   ".obsidian/hotkeys.json"]

/-- `normalizePath`: backslashes become slashes and one leading slash is
dropped. -/
def normalizePath (p : String) : String :=
  let slashed := p.data.map (fun c => if c = '\\' then '/' else c)
  match slashed with
  | '/' :: rest => String.mk rest
  | other => String.mk other

/-- `isMetadataAllowedPath`: membership of the normalized path in the
safe-metadata allow list. -/
def isMetadataAllowedPath (p : String) : Bool :=
  SAFE_METADATA_DEFAULTS.contains (normalizePath p)

/-- The allow-listed extensions (`ALLOW_EXTS`). -/
def ALLOW_EXTS : List String := [".md", ".canvas"]

/-- The deny-listed path beginnings (`DENY_PREFIXES` of the
`suppressedPaths.ts`-era `syncEngine.ts`). -/
def denyList : List String :=
  [".obsidian/", ".hive-history/", "Attachments/", ".git/"]

/-- Does the path fall under some deny-list entry? -/
def underDeny (p : String) : Bool := denyList.any (fun d => hasStart p d)

/-- Does the path carry an allow-listed extension
(`ALLOW_EXTS.has(path.slice(dot).toLowerCase())`)? -/
def hasAllowedExt (p : String) : Bool :=
  match extFrom p.data with
  | none => false
  | some e => ALLOW_EXTS.contains (String.mk (e.map Char.toLower))

/-- `isAllowed` from the optimistic-concurrency-era `syncEngine.ts`:
explicitly allow-listed metadata paths are accepted first, then the
deny list rejects, then the extension allow list decides. -/
def isAllowed (p : String) : Bool :=
  if isMetadataAllowedPath p then true
  else if underDeny p then false
  else hasAllowedExt p
end Policy

namespace PolicySync

/-- The deny-listed path beginnings of the quarantine-era
`syncEngine.ts`. -/
def denyList : List String :=
  [".obsidian/", "Attachments/", ".git/", ".hive/", ".hive-quarantine/"]

/-- Does the path fall under some deny-list entry? -/
def underDeny (p : String) : Bool := denyList.any (fun d => hasStart p d)

/-- `isAllowed` from the quarantine-era `syncEngine.ts`: the deny list
rejects first, then the extension allow list decides (no metadata
exception). -/
def isAllowed (p : String) : Bool :=
  if underDeny p then false
  else Policy.hasAllowedExt p
end PolicySync

/-! ### Sync engine reconciliation (`syncEngine.ts`, quarantine era) -/

/-- A remote manifest entry (`types.ts`). -/
structure ManifestEntry : Type where
  path : String
  hash : String
  mtime : Int
  size : Int
  deriving DecidableEq

namespace Sync

/-- The configured local-missing strategy. -/
inductive LocalMissingStrategy : Type where
  | delete
  | quarantine
  | keep
  deriving DecidableEq

/-- One effect performed by `initialSync`, in execution order. -/
inductive SyncAction : Type where
  | deleteLocal (path : String)
  | quarantineMove (path target : String)
  | pull (path : String)
  deriving DecidableEq

/-- The vault path an action touches. -/
def actionPath : SyncAction → String
  | .deleteLocal p => p
  | .quarantineMove p _ => p
  | .pull p => p

/-- Is the action a pull? -/
def isPull : SyncAction → Bool
  | .pull _ => true
  | _ => false

/-- The summary record returned by `initialSync`. -/
structure SyncSummary : Type where
  updated : Nat
  created : Nat
  deleted : Nat
  quarantined : Nat
  quarantinePath : Option String
  deriving DecidableEq

/-- The manifest-scan accumulator: paths marked for create/update and
the known states recorded without transferring bytes. -/
structure ScanAcc : Type where
  toCreate : List String
  toUpdate : List String
  cached : List (String × String)
  deriving DecidableEq

/-- The full outcome of one `initialSync` run: the four work lists, the
known states recorded during the scan, the ordered effect trace, and
the returned summary. -/
structure SyncRun : Type where
  toCreate : List String
  toUpdate : List String
  toDelete : List String
  toQuarantine : List String
  cached : List (String × String)
  actions : List SyncAction
  result : SyncSummary
  deriving DecidableEq

/-- `new Map(entries)` lookup: the last entry for a key wins. -/
def lookupLast (l : List (String × String)) (k : String) : Option String :=
  jget l.reverse k

/-- `serverByPath.has(p)`. -/
def hasPath (manifest : List ManifestEntry) (p : String) : Bool :=
  manifest.any (fun e => e.path == p)

/-- The locally present files that pass the policy filter
(`vault.getFiles().filter(f => isAllowed(f.path))`). -/
def localAllowed (locals : List (String × String)) : List (String × String) :=
  locals.filter (fun f => PolicySync.isAllowed f.1)

/-- The manifest scan: a missing local file marks a create, a hash
mismatch marks an update, and a hash match records the known state
without transferring bytes. -/
def scanManifest (hash : String → String) (localFiles : List (String × String))
    (manifest : List ManifestEntry) : ScanAcc :=
  manifest.foldl (fun acc entry =>
    match lookupLast localFiles entry.path with
    | none => { acc with toCreate := acc.toCreate ++ [entry.path] }
    | some content =>
      if hash content ≠ entry.hash then
        { acc with toUpdate := acc.toUpdate ++ [entry.path] }
      else
        { acc with cached := acc.cached ++ [(entry.path, content)] })
    ⟨[], [], []⟩

/-- The allowed local files absent from the server manifest. -/
def missingLocals (manifest : List ManifestEntry) (locals : List (String × String)) :
    List (String × String) :=
  (localAllowed locals).filter (fun f => !hasPath manifest f.1)

/-- The local deletions chosen by the strategy. -/
def toDeleteOf (strategy : LocalMissingStrategy) (missing : List (String × String)) :
    List String :=
  if strategy = .delete then missing.map Prod.fst else []

/-- The quarantine moves chosen by the strategy. -/
def toQuarantineOf (strategy : LocalMissingStrategy) (missing : List (String × String)) :
    List String :=
  if strategy = .quarantine then missing.map Prod.fst else []

/-- The timestamped quarantine root, created only when something is
quarantined. -/
def quarantineRootOf (stamp : String) (toQuarantine : List String) : Option String :=
  if toQuarantine.isEmpty then none else some (".hive-quarantine/" ++ stamp)

/-- The ordered effect trace of `initialSync`: deletions, then
quarantine moves, then pulls of new files, then pulls of changed
files. -/
def actionsOf (strategy : LocalMissingStrategy) (hash : String → String) (stamp : String)
    (manifest : List ManifestEntry) (locals : List (String × String)) : List SyncAction :=
  (toDeleteOf strategy (missingLocals manifest locals)).map SyncAction.deleteLocal
  ++ (match quarantineRootOf stamp (toQuarantineOf strategy (missingLocals manifest locals)) with
      | some r => (toQuarantineOf strategy (missingLocals manifest locals)).map
          (fun p => SyncAction.quarantineMove p (r ++ "/" ++ p))
      | none => [])
  ++ (scanManifest hash (localAllowed locals) manifest).toCreate.map SyncAction.pull
  ++ (scanManifest hash (localAllowed locals) manifest).toUpdate.map SyncAction.pull

/-- `SyncEngine.initialSync` of the quarantine-era `syncEngine.ts`:
scan the manifest, apply the local-missing strategy, execute deletions
and quarantines before pulls, and return the counts. -/
def initialSync (strategy : LocalMissingStrategy) (hash : String → String) (stamp : String)
    (manifest : List ManifestEntry) (locals : List (String × String)) : SyncRun :=
  { toCreate := (scanManifest hash (localAllowed locals) manifest).toCreate
  , toUpdate := (scanManifest hash (localAllowed locals) manifest).toUpdate
  , toDelete := toDeleteOf strategy (missingLocals manifest locals)
  , toQuarantine := toQuarantineOf strategy (missingLocals manifest locals)
  , cached := (scanManifest hash (localAllowed locals) manifest).cached
  , actions := actionsOf strategy hash stamp manifest locals
  , result :=
    { updated := (scanManifest hash (localAllowed locals) manifest).toUpdate.length
    , created := (scanManifest hash (localAllowed locals) manifest).toCreate.length
    , deleted := (toDeleteOf strategy (missingLocals manifest locals)).length
    , quarantined := (toQuarantineOf strategy (missingLocals manifest locals)).length
    , quarantinePath :=
        quarantineRootOf stamp (toQuarantineOf strategy (missingLocals manifest locals)) } }

/-- Modelled from the spec: the connect-era `SyncEngine.initialSync(skipPaths)`
variant (the body under `src/unnamed/part_009` lacks the skip parameter that
its caller in the connect handler passes).  One manifest-scan step: a manifest
entry whose path is in the skip set is ignored; otherwise the entry is
classified as create / update / cached exactly as in the base scan. -/
def scanStepSkip (hash : String → String) (localFiles : List (String × String))
    (skip : List String) (acc : ScanAcc) (entry : ManifestEntry) : ScanAcc :=
  if entry.path ∈ skip then acc
  else
    match lookupLast localFiles entry.path with
    | none => { acc with toCreate := acc.toCreate ++ [entry.path] }
    | some content =>
      if hash content ≠ entry.hash then
        { acc with toUpdate := acc.toUpdate ++ [entry.path] }
      else
        { acc with cached := acc.cached ++ [(entry.path, content)] }

/-- Modelled from the spec: the manifest scan of the skip-aware
`initialSync`. -/
def scanManifestSkip (hash : String → String) (localFiles : List (String × String))
    (manifest : List ManifestEntry) (skip : List String) : ScanAcc :=
  manifest.foldl (scanStepSkip hash localFiles skip) ⟨[], [], []⟩

/-- Modelled from the spec: the local-missing pass of the skip-aware
`initialSync`, ignoring skipped paths. -/
def missingLocalsSkip (manifest : List ManifestEntry) (locals : List (String × String))
    (skip : List String) : List (String × String) :=
  (localAllowed locals).filter (fun f =>
    if f.1 ∈ skip then false else !hasPath manifest f.1)

/-- Modelled from the spec: the effect trace of the skip-aware
`initialSync` (deletions, then quarantine moves, then pulls). -/
def actionsOfSkip (strategy : LocalMissingStrategy) (hash : String → String)
    (stamp : String) (manifest : List ManifestEntry) (locals : List (String × String))
    (skip : List String) : List SyncAction :=
  (toDeleteOf strategy (missingLocalsSkip manifest locals skip)).map SyncAction.deleteLocal
  ++ (match quarantineRootOf stamp
        (toQuarantineOf strategy (missingLocalsSkip manifest locals skip)) with
      | some r => (toQuarantineOf strategy (missingLocalsSkip manifest locals skip)).map
          (fun p => SyncAction.quarantineMove p (r ++ "/" ++ p))
      | none => [])
  ++ (scanManifestSkip hash (localAllowed locals) manifest skip).toCreate.map SyncAction.pull
  ++ (scanManifestSkip hash (localAllowed locals) manifest skip).toUpdate.map SyncAction.pull

/-- Modelled from the spec: `initialSync(skipPaths)` — skipped paths are
excluded from the scan, the local-missing pass and the execution step. -/
def initialSyncSkip (strategy : LocalMissingStrategy) (hash : String → String)
    (stamp : String) (manifest : List ManifestEntry) (locals : List (String × String))
    (skip : List String) : SyncRun :=
  { toCreate := (scanManifestSkip hash (localAllowed locals) manifest skip).toCreate
  , toUpdate := (scanManifestSkip hash (localAllowed locals) manifest skip).toUpdate
  , toDelete := toDeleteOf strategy (missingLocalsSkip manifest locals skip)
  , toQuarantine := toQuarantineOf strategy (missingLocalsSkip manifest locals skip)
  , cached := (scanManifestSkip hash (localAllowed locals) manifest skip).cached
  , actions := actionsOfSkip strategy hash stamp manifest locals skip
  , result :=
    { updated := (scanManifestSkip hash (localAllowed locals) manifest skip).toUpdate.length
    , created := (scanManifestSkip hash (localAllowed locals) manifest skip).toCreate.length
    , deleted := (toDeleteOf strategy (missingLocalsSkip manifest locals skip)).length
    , quarantined := (toQuarantineOf strategy (missingLocalsSkip manifest locals skip)).length
    , quarantinePath := quarantineRootOf stamp
        (toQuarantineOf strategy (missingLocalsSkip manifest locals skip)) } }
end Sync

namespace WI

/-- The Write Interceptor's view of the world for a single `modify`
event: the vault contents, the known-state content cache
(`SyncEngine.fileCache`) and the known-state hash cache
(`SyncEngine.fileHashCache`), each a path-keyed map. -/
structure WIState where
  files : List (String × String)
  fileCache : List (String × String)
  fileHashCache : List (String × String)
  deriving DecidableEq

/-- The server's answer to the `file-write` request: success with the
new hash, rejection with code `CONFLICT`, or any other failure. -/
inductive WriteOutcome : Type where
  | success (hash : String)
  | conflict
  | failure
  deriving DecidableEq

/-- `SyncEngine.recordKnownState`: store the content and hash for the
path. -/
def recordKnownState (p content hash : String) (st : WIState) : WIState :=
  { st with fileCache := jset st.fileCache p content,
            fileHashCache := jset st.fileHashCache p hash }

/-- `WriteInterceptor.revertFile`: write the cached known-state content
back to the file; without a cache entry nothing happens. -/
def revertFile (p : String) (st : WIState) : WIState :=
  match jget st.fileCache p with
  | none => st
  | some cached => { st with files := jset st.files p cached }

/-- `SyncEngine.pullFile`: on a successful `file-read` reply the remote
content is written to the vault and recorded as known state; a failed
request is caught and changes nothing. -/
def pullFile (remote : Option (String × String)) (p : String) (st : WIState) : WIState :=
  match remote with
  | none => st
  | some (content, hash) =>
    recordKnownState p content hash { st with files := jset st.files p content }

/-- `WriteInterceptor.onModify` (optimistic-concurrency era): skip
suppressed, disallowed and live-collab paths; offline, revert; online,
read the content and push it, then record known state on success, pull
the remote file on a `CONFLICT` rejection, and revert on any other
failure. -/
def onModify (connected : Bool) (collab suppressed : List String)
    (outcome : WriteOutcome) (remote : Option (String × String)) (p : String)
    (st : WIState) : WIState :=
  if suppressed.contains p then st
  else if !Policy.isAllowed p then st
  else if collab.contains p then st
  else if !connected then revertFile p st
  else
    match jget st.files p with
    | none => st
    | some content =>
      match outcome with
      | .success hash => recordKnownState p content hash st
      | .conflict => pullFile remote p st
      | .failure => revertFile p st
end WI

namespace WIQ

/-- The offline-queue-era Write Interceptor's view of the world for a
single `modify` event: the vault contents, the known-state content
cache, and the optional offline queue. -/
structure WIQState where
  files : List (String × String)
  fileCache : List (String × String)
  queue : Option (List QueuedOp)
  deriving DecidableEq

/-- `WriteInterceptor.onModify` (offline-queue era): skip suppressed,
disallowed and live-collab paths; disconnected with a queue present,
read the content and enqueue a `modify`; disconnected without a queue,
do nothing; connected, push the content (`writeOk` abstracts the
request outcome), caching it on success and reverting to the cached
content on failure. -/
def onModify (connected : Bool) (collab suppressed : List String) (writeOk : Bool)
    (p : String) (st : WIQState) : WIQState :=
  if suppressed.contains p then st
  else if !PolicySync.isAllowed p then st
  else if collab.contains p then st
  else if !connected then
    match st.queue with
    | none => st
    | some q =>
      match jget st.files p with
      | none => st
      | some content => { st with queue := some (OfflineQueue.enqueue q (.modify p content)) }
  else
    match jget st.files p with
    | none => st
    | some content =>
      if writeOk then { st with fileCache := jset st.fileCache p content }
      else
        match jget st.fileCache p with
        | none => st
        | some cached => { st with files := jset st.files p cached }

end WIQ


section CanvasSanity

open Canvas

example :
    canonicalizeCanvasModel (.obj [("nodes", .arr [.obj [("id", .str "b")], .obj [("id", .str "a")]]), ("edges", .arr [])]) =
      .obj [("nodes", .arr
        [.obj [("id", .str "a"), ("updatedAt", .num 0), ("deleted", .bool false)],
         .obj [("id", .str "b"), ("updatedAt", .num 0), ("deleted", .bool false)]]),
        ("edges", .arr [])] := by decide

example :
    mergeEntities
      [.obj [("id", .str "n1"), ("updatedAt", .num 100), ("deleted", .bool true)]]
      [.obj [("id", .str "n1"), ("updatedAt", .num 90), ("deleted", .bool false)]] =
      [.obj [("id", .str "n1"), ("updatedAt", .num 100), ("deleted", .bool true)]] := by decide

example :
    mergeEntities
      [.obj [("id", .str "n1"), ("updatedAt", .num 90), ("deleted", .bool false)]]
      [.obj [("id", .str "n1"), ("updatedAt", .num 100), ("deleted", .bool true)]] =
      [.obj [("id", .str "n1"), ("updatedAt", .num 100), ("deleted", .bool true)]] := by decide

example :
    stringify (.obj [("id", .str "x"), ("updatedAt", .num 5)]) =
      "\x7b\"id\":\"x\",\"updatedAt\":5\x7d" := by decide

end CanvasSanity

theorem akeys_cons {α : Type} (k : String) (v : α) (m : List (String × α)) :
    akeys ((k, v) :: m) = k :: akeys m := rfl

theorem jget_jset_self {α : Type} (m : List (String × α)) (k : String) (v : α) :
    jget (jset m k v) k = some v := by
  induction m with
  | nil => simp [jget, jset]
  | cons kv rest ih =>
    obtain ⟨k1, v1⟩ := kv
    by_cases h : k1 = k
    · simp [jset, h, jget]
    · simp [jset, h, jget, ih]

theorem jget_jset_ne {α : Type} (m : List (String × α)) (k k' : String) (v : α)
    (h : k' ≠ k) : jget (jset m k v) k' = jget m k' := by
  have hk : ¬ k = k' := fun hh => h hh.symm
  induction m with
  | nil => simp [jget, jset, hk]
  | cons kv rest ih =>
    obtain ⟨k1, v1⟩ := kv
    by_cases h1 : k1 = k
    · subst h1
      simp [jset, jget, hk]
    · simp [jset, h1, jget, ih]

theorem jset_eq_self {α : Type} (m : List (String × α)) (k : String) (v : α)
    (h : jget m k = some v) : jset m k v = m := by
  induction m with
  | nil => simp [jget] at h
  | cons kv rest ih =>
    obtain ⟨k1, v1⟩ := kv
    by_cases h1 : k1 = k
    · subst h1
      simp [jget] at h
      simp [jset, h]
    · simp [jget, h1] at h
      simp [jset, h1, ih h]

theorem jset_of_not_mem {α : Type} (m : List (String × α)) (k : String) (v : α)
    (h : k ∉ akeys m) : jset m k v = m ++ [(k, v)] := by
  induction m with
  | nil => simp [jset]
  | cons kv rest ih =>
    obtain ⟨k1, v1⟩ := kv
    rw [akeys_cons] at h
    have h1 : ¬ k1 = k := fun hh => h (by simp [hh])
    have h2 : k ∉ akeys rest := fun hh => h (List.mem_cons_of_mem _ hh)
    simp [jset, h1, ih h2]

theorem jget_eq_none_of_not_mem {α : Type} (m : List (String × α)) (k : String)
    (h : k ∉ akeys m) : jget m k = none := by
  induction m with
  | nil => simp [jget]
  | cons kv rest ih =>
    obtain ⟨k1, v1⟩ := kv
    rw [akeys_cons] at h
    have h1 : ¬ k1 = k := fun hh => h (by simp [hh])
    have h2 : k ∉ akeys rest := fun hh => h (List.mem_cons_of_mem _ hh)
    simp [jget, h1, ih h2]

theorem mem_of_jget_eq_some {α : Type} (m : List (String × α)) (k : String) (v : α)
    (h : jget m k = some v) : (k, v) ∈ m := by
  induction m with
  | nil => simp [jget] at h
  | cons kv rest ih =>
    obtain ⟨k1, v1⟩ := kv
    by_cases h1 : k1 = k
    · subst h1
      simp [jget] at h
      simp [h]
    · simp [jget, h1] at h
      exact List.mem_cons_of_mem _ (ih h)

theorem not_mem_of_jget_eq_none {α : Type} (m : List (String × α)) (k : String)
    (h : jget m k = none) : k ∉ akeys m := by
  induction m with
  | nil => simp [akeys]
  | cons kv rest ih =>
    obtain ⟨k1, v1⟩ := kv
    by_cases h1 : k1 = k
    · subst h1; simp [jget] at h
    · simp [jget, h1] at h
      rw [akeys_cons]
      intro hmem
      rcases List.mem_cons.mp hmem with hmem | hmem
      · exact h1 hmem.symm
      · exact ih h hmem

theorem jget_isSome_of_mem {α : Type} (m : List (String × α)) (k : String)
    (h : k ∈ akeys m) : ∃ v, jget m k = some v := by
  cases hh : jget m k with
  | some v => exact ⟨v, rfl⟩
  | none => exact absurd h (not_mem_of_jget_eq_none m k hh)

theorem mem_akeys_of_mem {α : Type} {m : List (String × α)} {p : String × α}
    (h : p ∈ m) : p.1 ∈ akeys m := List.mem_map_of_mem Prod.fst h

theorem jget_of_mem_nodup {α : Type} (m : List (String × α)) (k : String) (v : α)
    (hnd : (akeys m).Nodup) (h : (k, v) ∈ m) : jget m k = some v := by
  induction m with
  | nil => simp at h
  | cons kv rest ih =>
    obtain ⟨k1, v1⟩ := kv
    rw [akeys_cons, List.nodup_cons] at hnd
    rcases List.mem_cons.mp h with h | h
    · obtain ⟨h1, h2⟩ := Prod.mk.injEq .. ▸ h
      simp [jget, h1.symm, h2]
    · have hk : ¬ k1 = k := by
        intro hh
        subst hh
        exact hnd.1 (by simpa using mem_akeys_of_mem h)
      simp only [jget, if_neg hk]
      exact ih hnd.2 h

theorem mem_akeys_jset {α : Type} (m : List (String × α)) (k k' : String) (v : α) :
    k' ∈ akeys (jset m k v) ↔ k' ∈ akeys m ∨ k' = k := by
  induction m with
  | nil => simp [jset, akeys, eq_comm]
  | cons kv rest ih =>
    obtain ⟨k1, v1⟩ := kv
    by_cases h1 : k1 = k
    · subst h1
      rw [show jset ((k1, v1) :: rest) k1 v = (k1, v) :: rest from by simp [jset]]
      rw [akeys_cons, akeys_cons]
      simp only [List.mem_cons]
      tauto
    · simp only [jset, if_neg h1, akeys_cons, List.mem_cons]
      rw [ih]
      tauto

theorem akeys_jset_of_mem {α : Type} (m : List (String × α)) (k : String) (v : α)
    (h : k ∈ akeys m) : akeys (jset m k v) = akeys m := by
  induction m with
  | nil => simp [akeys] at h
  | cons kv rest ih =>
    obtain ⟨k1, v1⟩ := kv
    by_cases h1 : k1 = k
    · simp [jset, h1, akeys_cons]
    · rw [akeys_cons] at h
      rcases List.mem_cons.mp h with h | h
      · exact absurd h.symm h1
      · simp [jset, h1, akeys_cons, ih h]

theorem nodup_akeys_jset {α : Type} (m : List (String × α)) (k : String) (v : α)
    (hnd : (akeys m).Nodup) : (akeys (jset m k v)).Nodup := by
  by_cases h : k ∈ akeys m
  · rw [akeys_jset_of_mem m k v h]; exact hnd
  · rw [jset_of_not_mem m k v h]
    simp only [akeys, List.map_append, List.map_cons, List.map_nil]
    rw [List.nodup_append]
    exact ⟨hnd, List.nodup_singleton k, by simpa [akeys] using h⟩

theorem mem_of_mem_jset {α : Type} (m : List (String × α)) (k : String) (v : α)
    (p : String × α) (h : p ∈ jset m k v) : p ∈ m ∨ p = (k, v) := by
  induction m with
  | nil =>
    simp [jset] at h
    exact Or.inr h
  | cons kv rest ih =>
    obtain ⟨k1, v1⟩ := kv
    by_cases h1 : k1 = k
    · subst h1
      rcases by simpa [jset] using h with h | h
      · exact Or.inr (by simp [h])
      · exact Or.inl (List.mem_cons_of_mem _ h)
    · rcases by simpa [jset, h1] using h with h | h
      · exact Or.inl (by simp [h])
      · rcases ih h with h | h
        · exact Or.inl (List.mem_cons_of_mem _ h)
        · exact Or.inr h

/-! ### Code-point order lemmas -/

theorem char_toNat_inj {a b : Char} (h : a.toNat = b.toNat) : a = b :=
  Char.ext (UInt32.ext h)

theorem string_data_inj {s t : String} (h : s.data = t.data) : s = t := by
  cases s; cases t; exact congrArg String.mk h

theorem listStrLe_refl (a : List Char) : listStrLe a a = true := by
  induction a with
  | nil => rfl
  | cons x xs ih => simp [listStrLe, ih]

theorem listStrLe_total (a b : List Char) :
    listStrLe a b = true ∨ listStrLe b a = true := by
  induction a generalizing b with
  | nil => left; rfl
  | cons x xs ih =>
    cases b with
    | nil => right; rfl
    | cons y ys =>
      by_cases h1 : x.toNat < y.toNat
      · left; simp [listStrLe, h1]
      · by_cases h2 : y.toNat < x.toNat
        · right; simp [listStrLe, h1, h2]
        · rcases ih ys with h | h
          · left; simp [listStrLe, h1, h2, h]
          · right; simp [listStrLe, h1, h2, h]

theorem listStrLe_trans {a b c : List Char}
    (h1 : listStrLe a b = true) (h2 : listStrLe b c = true) :
    listStrLe a c = true := by
  induction a generalizing b c with
  | nil => rfl
  | cons x xs ih =>
    cases b with
    | nil => simp [listStrLe] at h1
    | cons y ys =>
      cases c with
      | nil => simp [listStrLe] at h2
      | cons z zs =>
        by_cases hxy : x.toNat < y.toNat
        · by_cases hyz : y.toNat < z.toNat
          · simp [listStrLe, lt_trans hxy hyz]
          · by_cases hzy : z.toNat < y.toNat
            · simp [listStrLe, hyz, hzy] at h2
            · have : y.toNat = z.toNat := le_antisymm (not_lt.mp hzy) (not_lt.mp hyz)
              simp [listStrLe, this ▸ hxy]
        · by_cases hyx : y.toNat < x.toNat
          · simp [listStrLe, hxy, hyx] at h1
          · have hxy' : x.toNat = y.toNat := le_antisymm (not_lt.mp hyx) (not_lt.mp hxy)
            simp only [listStrLe, if_neg hxy, if_neg hyx] at h1
            by_cases hyz : y.toNat < z.toNat
            · simp [listStrLe, hxy' ▸ hyz]
            · by_cases hzy : z.toNat < y.toNat
              · simp [listStrLe, hyz, hzy] at h2
              · simp only [listStrLe, if_neg hyz, if_neg hzy] at h2
                have hx1 : ¬ x.toNat < z.toNat := by
                  rw [hxy']; exact hyz
                have hx2 : ¬ z.toNat < x.toNat := by
                  rw [hxy']; exact hzy
                simp only [listStrLe, if_neg hx1, if_neg hx2]
                exact ih h1 h2

theorem listStrLe_antisymm {a b : List Char}
    (h1 : listStrLe a b = true) (h2 : listStrLe b a = true) : a = b := by
  induction a generalizing b with
  | nil =>
    cases b with
    | nil => rfl
    | cons y ys => simp [listStrLe] at h2
  | cons x xs ih =>
    cases b with
    | nil => simp [listStrLe] at h1
    | cons y ys =>
      by_cases hxy : x.toNat < y.toNat
      · simp [listStrLe, lt_asymm hxy, hxy] at h2
      · by_cases hyx : y.toNat < x.toNat
        · simp [listStrLe, hxy, hyx] at h1
        · have hc : x = y := char_toNat_inj (le_antisymm (not_lt.mp hyx) (not_lt.mp hxy))
          simp only [listStrLe, if_neg hxy, if_neg hyx] at h1
          simp only [listStrLe, if_neg hyx, if_neg hxy] at h2
          rw [hc, ih h1 h2]

theorem strLe_refl (s : String) : strLe s s = true := listStrLe_refl s.data

theorem strLe_total (s t : String) : strLe s t = true ∨ strLe t s = true :=
  listStrLe_total s.data t.data

theorem strLe_trans {s t u : String}
    (h1 : strLe s t = true) (h2 : strLe t u = true) : strLe s u = true :=
  listStrLe_trans h1 h2

theorem strLe_antisymm {s t : String}
    (h1 : strLe s t = true) (h2 : strLe t s = true) : s = t :=
  string_data_inj (listStrLe_antisymm h1 h2)

namespace Canvas

/-! ### Stable sort lemmas -/


theorem entLe_total (a b : JsVal) : entLe a b = true ∨ entLe b a = true :=
  strLe_total (eid a) (eid b)

theorem entLe_trans {a b c : JsVal}
    (h1 : entLe a b = true) (h2 : entLe b c = true) : entLe a c = true :=
  strLe_trans h1 h2

theorem entLe_refl (a : JsVal) : entLe a a = true := strLe_refl (eid a)

theorem insertEnt_perm (x : JsVal) (l : List JsVal) :
    (insertEnt x l).Perm (x :: l) := by
  induction l with
  | nil => exact List.Perm.refl _
  | cons y ys ih =>
    by_cases h : entLe x y
    · simp [insertEnt, h]
    · simp only [insertEnt, if_neg h]
      exact (ih.cons y).trans (List.Perm.swap x y ys)

theorem sortEntities_perm (l : List JsVal) : (sortEntities l).Perm l := by
  induction l with
  | nil => exact List.Perm.refl _
  | cons x xs ih =>
    exact (insertEnt_perm x (sortEntities xs)).trans (ih.cons x)

theorem mem_insertEnt {x z : JsVal} {l : List JsVal} (h : z ∈ insertEnt x l) :
    z = x ∨ z ∈ l := by
  have := (insertEnt_perm x l).mem_iff.mp h
  simpa using this

theorem insertEnt_pairwise {x : JsVal} {l : List JsVal}
    (hp : l.Pairwise (fun a b => entLe a b = true)) :
    (insertEnt x l).Pairwise (fun a b => entLe a b = true) := by
  induction l with
  | nil => simp [insertEnt]
  | cons y ys ih =>
    rcases List.pairwise_cons.mp hp with ⟨hy, hys⟩
    by_cases h : entLe x y
    · rw [show insertEnt x (y :: ys) = x :: y :: ys from by simp [insertEnt, h]]
      refine List.pairwise_cons.mpr ⟨?_, hp⟩
      intro z hz
      rcases List.mem_cons.mp hz with hz | hz
      · subst hz; exact h
      · exact entLe_trans h (hy z hz)
    · have hyx : entLe y x = true := by
        rcases entLe_total x y with ht | ht
        · exact absurd ht h
        · exact ht
      simp only [insertEnt, if_neg h]
      refine List.pairwise_cons.mpr ⟨?_, ih hys⟩
      intro z hz
      rcases mem_insertEnt hz with hz | hz
      · subst hz; exact hyx
      · exact hy z hz

theorem sortEntities_pairwise (l : List JsVal) :
    (sortEntities l).Pairwise (fun a b => entLe a b = true) := by
  induction l with
  | nil => simp [sortEntities]
  | cons x xs ih => exact insertEnt_pairwise ih

theorem sortEntities_of_pairwise {l : List JsVal}
    (hp : l.Pairwise (fun a b => entLe a b = true)) : sortEntities l = l := by
  induction l with
  | nil => rfl
  | cons x xs ih =>
    rcases List.pairwise_cons.mp hp with ⟨hx, hxs⟩
    show insertEnt x (sortEntities xs) = x :: xs
    rw [ih hxs]
    cases xs with
    | nil => rfl
    | cons y ys => simp [insertEnt, hx y (List.mem_cons_self y ys)]

theorem sortEntities_idem (l : List JsVal) :
    sortEntities (sortEntities l) = sortEntities l :=
  sortEntities_of_pairwise (sortEntities_pairwise l)

/-! ### Canonicalization lemmas -/


theorem jget_entityWithTs_ne (kvs : List (String × JsVal)) (k : String)
    (h : k ≠ "updatedAt") : jget (entityWithTs kvs) k = jget kvs k := by
  unfold entityWithTs
  split
  · rfl
  · exact jget_jset_ne _ _ _ _ h

theorem isNumOpt_entityWithTs (kvs : List (String × JsVal)) :
    isNumOpt (jget (entityWithTs kvs) "updatedAt") = true := by
  unfold entityWithTs
  split
  · next h => exact h
  · rw [jget_jset_self]; rfl

theorem jget_entityWithDel_ne (kvs : List (String × JsVal)) (k : String)
    (h : k ≠ "deleted") : jget (entityWithDel kvs) k = jget kvs k :=
  jget_jset_ne _ _ _ _ h

theorem jget_entityWithDel_del (kvs : List (String × JsVal)) :
    jget (entityWithDel kvs) "deleted" =
      some (.bool (truthyOpt (jget kvs "deleted"))) :=
  jget_jset_self _ _ _

theorem normalizeEntity_obj {kvs : List (String × JsVal)} {s : String}
    (hid : jget kvs "id" = some (.str s)) (hs : ¬ s = "") :
    normalizeEntity (.obj kvs) = some (.obj (entityWithDel (entityWithTs kvs))) := by
  simp only [normalizeEntity, hid]
  exact if_neg hs

theorem normalizeEntity_idem {e e' : JsVal} (h : normalizeEntity e = some e') :
    normalizeEntity e' = some e' := by
  cases e with
  | obj kvs =>
    simp only [normalizeEntity] at h
    cases hid : jget kvs "id" with
    | none => simp [hid] at h
    | some v =>
      cases v with
      | str s =>
        simp only [hid] at h
        by_cases hs : s = ""
        · rw [if_pos hs] at h
          exact absurd h (by simp)
        · rw [if_neg hs] at h
          have he : e' = .obj (entityWithDel (entityWithTs kvs)) :=
            (Option.some.inj h).symm
          subst he
          have hid2 : jget (entityWithDel (entityWithTs kvs)) "id" = some (.str s) := by
            rw [jget_entityWithDel_ne _ _ (by decide),
              jget_entityWithTs_ne _ _ (by decide), hid]
          have h1 : entityWithTs (entityWithDel (entityWithTs kvs)) =
              entityWithDel (entityWithTs kvs) := by
            unfold entityWithTs
            rw [if_pos]
            rw [jget_entityWithDel_ne _ _ (by decide)]
            exact isNumOpt_entityWithTs kvs
          have h2 : entityWithDel (entityWithDel (entityWithTs kvs)) =
              entityWithDel (entityWithTs kvs) := by
            have hd := jget_entityWithDel_del (entityWithTs kvs)
            show jset (entityWithDel (entityWithTs kvs)) "deleted"
                (.bool (truthyOpt (jget (entityWithDel (entityWithTs kvs)) "deleted"))) =
              entityWithDel (entityWithTs kvs)
            rw [hd]
            exact jset_eq_self _ _ _ hd
          rw [normalizeEntity_obj hid2 hs, h1, h2]
      | null => simp [hid] at h
      | bool b => simp [hid] at h
      | num n => simp [hid] at h
      | arr l => simp [hid] at h
      | obj l => simp [hid] at h
  | null => simp [normalizeEntity] at h
  | bool b => simp [normalizeEntity] at h
  | num n => simp [normalizeEntity] at h
  | str s => simp [normalizeEntity] at h
  | arr l => simp [normalizeEntity] at h

theorem filterMap_norm_self {l : List JsVal}
    (h : ∀ e ∈ l, normalizeEntity e = some e) :
    l.filterMap normalizeEntity = l := by
  induction l with
  | nil => rfl
  | cons x xs ih =>
    rw [List.filterMap_cons, h x (List.mem_cons_self x xs),
      ih (fun e he => h e (List.mem_cons_of_mem x he))]

theorem mem_normalizeEntities_fixed {v : Option JsVal} {e : JsVal}
    (h : e ∈ normalizeEntities v) : normalizeEntity e = some e := by
  cases v with
  | none => simp [normalizeEntities] at h
  | some w =>
    cases w with
    | arr xs =>
      simp only [normalizeEntities] at h
      rcases List.mem_filterMap.mp h with ⟨a, _, ha⟩
      exact normalizeEntity_idem ha
    | null => simp [normalizeEntities] at h
    | bool b => simp [normalizeEntities] at h
    | num n => simp [normalizeEntities] at h
    | str s => simp [normalizeEntities] at h
    | obj l => simp [normalizeEntities] at h

theorem jget_canonStep_self (kvs : List (String × JsVal)) (k : String) :
    jget (canonStep kvs k) k =
      some (.arr (sortEntities (normalizeEntities (jget kvs k)))) :=
  jget_jset_self _ _ _

theorem jget_canonStep_ne (kvs : List (String × JsVal)) (k k' : String)
    (h : k' ≠ k) : jget (canonStep kvs k) k' = jget kvs k' :=
  jget_jset_ne _ _ _ _ h

theorem jget_canonKvs_nodes (x : JsVal) :
    jget (canonKvs x) "nodes" =
      some (.arr (sortEntities (normalizeEntities (jget (rawKvs x) "nodes")))) := by
  unfold canonKvs
  rw [jget_canonStep_ne _ _ _ (by decide : ("nodes" : String) ≠ "edges"),
    jget_canonStep_self]

theorem jget_canonKvs_edges (x : JsVal) :
    jget (canonKvs x) "edges" =
      some (.arr (sortEntities (normalizeEntities (jget (rawKvs x) "edges")))) := by
  unfold canonKvs
  rw [jget_canonStep_self,
    jget_canonStep_ne _ _ _ (by decide : ("edges" : String) ≠ "nodes")]

theorem canonNodes_eq (x : JsVal) :
    canonNodes x = sortEntities (normalizeEntities (jget (rawKvs x) "nodes")) := by
  show nodesOf (JsVal.obj (canonKvs x)) = _
  unfold nodesOf
  rw [show getField (JsVal.obj (canonKvs x)) "nodes" = jget (canonKvs x) "nodes" from rfl]
  rw [jget_canonKvs_nodes]

theorem canonEdges_eq (x : JsVal) :
    canonEdges x = sortEntities (normalizeEntities (jget (rawKvs x) "edges")) := by
  show edgesOf (JsVal.obj (canonKvs x)) = _
  unfold edgesOf
  rw [show getField (JsVal.obj (canonKvs x)) "edges" = jget (canonKvs x) "edges" from rfl]
  rw [jget_canonKvs_edges]

theorem mem_canonNodes_fixed {x e : JsVal} (h : e ∈ canonNodes x) :
    normalizeEntity e = some e := by
  rw [canonNodes_eq] at h
  exact mem_normalizeEntities_fixed ((sortEntities_perm _).subset h)

theorem mem_canonEdges_fixed {x e : JsVal} (h : e ∈ canonEdges x) :
    normalizeEntity e = some e := by
  rw [canonEdges_eq] at h
  exact mem_normalizeEntities_fixed ((sortEntities_perm _).subset h)

theorem canonNodes_pairwise (x : JsVal) :
    (canonNodes x).Pairwise (fun a b => entLe a b = true) := by
  rw [canonNodes_eq]; exact sortEntities_pairwise _

theorem canonEdges_pairwise (x : JsVal) :
    (canonEdges x).Pairwise (fun a b => entLe a b = true) := by
  rw [canonEdges_eq]; exact sortEntities_pairwise _

theorem normalizeEntities_sorted_fixed (v : Option JsVal) :
    normalizeEntities (some (.arr (sortEntities (normalizeEntities v)))) =
      sortEntities (normalizeEntities v) := by
  show List.filterMap normalizeEntity _ = _
  apply filterMap_norm_self
  intro e he
  exact mem_normalizeEntities_fixed ((sortEntities_perm _).subset he)

theorem canonStep_canon_nodes (x : JsVal) :
    canonStep (canonKvs x) "nodes" = canonKvs x := by
  unfold canonStep
  rw [jget_canonKvs_nodes, normalizeEntities_sorted_fixed, sortEntities_idem]
  exact jset_eq_self _ _ _ (jget_canonKvs_nodes x)

theorem canonStep_canon_edges (x : JsVal) :
    canonStep (canonKvs x) "edges" = canonKvs x := by
  unfold canonStep
  rw [jget_canonKvs_edges, normalizeEntities_sorted_fixed, sortEntities_idem]
  exact jset_eq_self _ _ _ (jget_canonKvs_edges x)

theorem canonKvs_canon (x : JsVal) :
    canonKvs (canonicalizeCanvasModel x) = canonKvs x := by
  show canonStep (canonStep (rawKvs (JsVal.obj (canonKvs x))) "nodes") "edges" = canonKvs x
  rw [show rawKvs (JsVal.obj (canonKvs x)) = canonKvs x from rfl]
  rw [canonStep_canon_nodes, canonStep_canon_edges]

theorem canonicalize_idem (x : JsVal) :
    canonicalizeCanvasModel (canonicalizeCanvasModel x) = canonicalizeCanvasModel x := by
  show JsVal.obj (canonKvs (canonicalizeCanvasModel x)) = JsVal.obj (canonKvs x)
  rw [canonKvs_canon]
end Canvas

/-- C8: for every canvas document `x`,
`parseCanvasModel(serializeCanvasModel(canonicalizeCanvasModel(x)))` is
the canonical form of `x` itself — in particular it has the same node
and edge entity sets in the same ascending-id order.  (Serializing
already canonicalizes, so the serialized text denotes the canonical
value and parsing it canonicalizes again; the theorem is
canonicalization idempotence through the textual boundary.) -/
theorem C8_serialize_parse_round_trip (x : JsVal) :
    Canvas.parseCanvasModel (some (Canvas.serializeCanvasModel (Canvas.canonicalizeCanvasModel x))) =
      Canvas.canonicalizeCanvasModel x := by
  show Canvas.canonicalizeCanvasModel
      (Canvas.canonicalizeCanvasModel (Canvas.canonicalizeCanvasModel x)) =
    Canvas.canonicalizeCanvasModel x
  rw [Canvas.canonicalize_idem, Canvas.canonicalize_idem]

namespace Canvas

/-! ### Resolve lemmas -/


theorem resolveEntity_some (b e : JsVal) :
    resolveEntity (some b) e =
      (if deletedOf e && !deletedOf b then e
      else if deletedOf b && !deletedOf e then
        if updatedAtOf e > updatedAtOf b then e else b
      else if updatedAtOf e > updatedAtOf b then e
      else if updatedAtOf e < updatedAtOf b then b
      else if strLe (stringify b) (stringify e) then e else b) := rfl

theorem resolveEntity_mem (b e : JsVal) :
    resolveEntity (some b) e = b ∨ resolveEntity (some b) e = e := by
  rw [resolveEntity_some]
  split_ifs <;> first | exact Or.inl rfl | exact Or.inr rfl

theorem resolveEntity_self (e : JsVal) : resolveEntity (some e) e = e := by
  rw [resolveEntity_some]
  split_ifs <;> rfl

theorem tsTieSymm (u v : JsVal)
    (h : updatedAtOf u = updatedAtOf v → stringify u = stringify v → u = v) :
    (if updatedAtOf v > updatedAtOf u then v
     else if updatedAtOf v < updatedAtOf u then u
     else if strLe (stringify u) (stringify v) then v else u) =
    (if updatedAtOf u > updatedAtOf v then u
     else if updatedAtOf u < updatedAtOf v then v
     else if strLe (stringify v) (stringify u) then u else v) := by
  rcases lt_trichotomy (updatedAtOf u) (updatedAtOf v) with ht | ht | ht
  · rw [if_pos ht, if_neg (lt_asymm ht), if_pos ht]
  · have hn1 : ¬ updatedAtOf u < updatedAtOf v := not_lt.mpr (le_of_eq ht.symm)
    have hn2 : ¬ updatedAtOf v < updatedAtOf u := not_lt.mpr (le_of_eq ht)
    rw [if_neg hn2, if_neg hn1, if_neg hn1, if_neg hn2]
    by_cases hs1 : strLe (stringify u) (stringify v) = true
    · by_cases hs2 : strLe (stringify v) (stringify u) = true
      · rw [h ht (strLe_antisymm hs1 hs2)]
      · rw [if_pos hs1, if_neg (fun hh => hs2 hh)]
    · have hs2 : strLe (stringify v) (stringify u) = true := by
        rcases strLe_total (stringify u) (stringify v) with hh | hh
        · exact absurd hh hs1
        · exact hh
      rw [if_neg (fun hh => hs1 hh), if_pos hs2]
  · rw [if_neg (lt_asymm ht), if_pos ht, if_pos ht]

theorem resolveEntity_symm (a b : JsVal)
    (h1 : deletedOf a = deletedOf b → updatedAtOf a = updatedAtOf b →
      stringify a = stringify b → a = b)
    (h2 : deletedOf a = true → deletedOf b = false → updatedAtOf b ≤ updatedAtOf a)
    (h3 : deletedOf b = true → deletedOf a = false → updatedAtOf a ≤ updatedAtOf b) :
    resolveEntity (some a) b = resolveEntity (some b) a := by
  rw [resolveEntity_some, resolveEntity_some]
  cases hda : deletedOf a <;> cases hdb : deletedOf b
  · -- both live: timestamp comparison with serialized tie-break
    show (if updatedAtOf b > updatedAtOf a then b
      else if updatedAtOf b < updatedAtOf a then a
      else if strLe (stringify a) (stringify b) then b else a) =
      (if updatedAtOf a > updatedAtOf b then a
      else if updatedAtOf a < updatedAtOf b then b
      else if strLe (stringify b) (stringify a) then a else b)
    exact tsTieSymm a b (fun hts hstr => h1 (hda.trans hdb.symm) hts hstr)
  · -- a live, b tombstone: incoming tombstone wins on the left,
    -- the stale resurrect loses on the right
    have hts : updatedAtOf a ≤ updatedAtOf b := h3 hdb hda
    show b = (if updatedAtOf a > updatedAtOf b then a else b)
    rw [if_neg (not_lt.mpr hts)]
  · -- a tombstone, b live
    have hts : updatedAtOf b ≤ updatedAtOf a := h2 hda hdb
    show (if updatedAtOf b > updatedAtOf a then b else a) = a
    rw [if_neg (not_lt.mpr hts)]
  · -- both tombstones
    show (if updatedAtOf b > updatedAtOf a then b
      else if updatedAtOf b < updatedAtOf a then a
      else if strLe (stringify a) (stringify b) then b else a) =
      (if updatedAtOf a > updatedAtOf b then a
      else if updatedAtOf a < updatedAtOf b then b
      else if strLe (stringify b) (stringify a) then a else b)
    exact tsTieSymm a b (fun hts hstr => h1 (hda.trans hdb.symm) hts hstr)

/-! ### Map-fill lemmas for the merge loops -/


theorem fillBase_nil (m : List (String × JsVal)) : fillBase m [] = m := rfl

theorem fillBase_cons (m : List (String × JsVal)) (e : JsVal) (es : List JsVal) :
    fillBase m (e :: es) = fillBase (jset m (eid e) e) es := rfl

theorem fillIncoming_nil (m : List (String × JsVal)) : fillIncoming m [] = m := rfl

theorem fillIncoming_cons (m : List (String × JsVal)) (e : JsVal) (es : List JsVal) :
    fillIncoming m (e :: es) =
      fillIncoming (jset m (eid e) (resolveEntity (jget m (eid e)) e)) es := rfl

theorem fillBase_keyInv {m : List (String × JsVal)} {es : List JsVal}
    (hm : ∀ p ∈ m, eid p.2 = p.1) : ∀ p ∈ fillBase m es, eid p.2 = p.1 := by
  induction es generalizing m with
  | nil => exact hm
  | cons e es ih =>
    rw [fillBase_cons]
    refine ih ?_
    intro p hp
    rcases mem_of_mem_jset _ _ _ _ hp with hp | hp
    · exact hm p hp
    · rw [hp]

theorem fillIncoming_keyInv {m : List (String × JsVal)} {es : List JsVal}
    (hm : ∀ p ∈ m, eid p.2 = p.1) : ∀ p ∈ fillIncoming m es, eid p.2 = p.1 := by
  induction es generalizing m with
  | nil => exact hm
  | cons e es ih =>
    rw [fillIncoming_cons]
    refine ih ?_
    intro p hp
    rcases mem_of_mem_jset _ _ _ _ hp with hp | hp
    · exact hm p hp
    · rw [hp]
      show eid (resolveEntity (jget m (eid e)) e) = eid e
      cases hg : jget m (eid e) with
      | none => rfl
      | some b =>
        rcases resolveEntity_mem b e with hr | hr
        · rw [hr]
          exact hm (eid e, b) (mem_of_jget_eq_some _ _ _ hg)
        · rw [hr]

theorem mem_map_snd_jset {m : List (String × JsVal)} {k : String} {v w : JsVal}
    (h : w ∈ (jset m k v).map Prod.snd) : w ∈ m.map Prod.snd ∨ w = v := by
  rcases List.mem_map.mp h with ⟨p, hp, hw⟩
  rcases mem_of_mem_jset _ _ _ _ hp with hp | hp
  · exact Or.inl (hw ▸ List.mem_map_of_mem Prod.snd hp)
  · right; rw [← hw, hp]

theorem fillBase_values {m : List (String × JsVal)} {es : List JsVal} {w : JsVal}
    (h : w ∈ (fillBase m es).map Prod.snd) : w ∈ m.map Prod.snd ∨ w ∈ es := by
  induction es generalizing m with
  | nil => exact Or.inl h
  | cons e es ih =>
    rw [fillBase_cons] at h
    rcases ih h with h | h
    · rcases mem_map_snd_jset h with h | h
      · exact Or.inl h
      · exact Or.inr (h ▸ List.mem_cons_self e es)
    · exact Or.inr (List.mem_cons_of_mem e h)

theorem fillIncoming_values {m : List (String × JsVal)} {es : List JsVal} {w : JsVal}
    (h : w ∈ (fillIncoming m es).map Prod.snd) : w ∈ m.map Prod.snd ∨ w ∈ es := by
  induction es generalizing m with
  | nil => exact Or.inl h
  | cons e es ih =>
    rw [fillIncoming_cons] at h
    rcases ih h with h | h
    · rcases mem_map_snd_jset h with h | h
      · exact Or.inl h
      · cases hg : jget m (eid e) with
        | none =>
          rw [hg] at h
          exact Or.inr (h ▸ List.mem_cons_self e es)
        | some b =>
          rw [hg] at h
          rcases resolveEntity_mem b e with hr | hr
          · rw [h, hr]
            exact Or.inl (List.mem_map_of_mem Prod.snd (mem_of_jget_eq_some _ _ _ hg))
          · exact Or.inr ((h.trans hr) ▸ List.mem_cons_self e es)
    · exact Or.inr (List.mem_cons_of_mem e h)

theorem mem_akeys_fillBase {m : List (String × JsVal)} {es : List JsVal} {k : String} :
    k ∈ akeys (fillBase m es) ↔ k ∈ akeys m ∨ k ∈ es.map eid := by
  induction es generalizing m with
  | nil => simp [fillBase_nil]
  | cons e es ih =>
    rw [fillBase_cons, ih, mem_akeys_jset]
    simp only [List.map_cons, List.mem_cons]
    tauto

theorem mem_akeys_fillIncoming {m : List (String × JsVal)} {es : List JsVal} {k : String} :
    k ∈ akeys (fillIncoming m es) ↔ k ∈ akeys m ∨ k ∈ es.map eid := by
  induction es generalizing m with
  | nil => simp [fillIncoming_nil]
  | cons e es ih =>
    rw [fillIncoming_cons, ih, mem_akeys_jset]
    simp only [List.map_cons, List.mem_cons]
    tauto

theorem nodup_akeys_fillBase {m : List (String × JsVal)} {es : List JsVal}
    (h : (akeys m).Nodup) : (akeys (fillBase m es)).Nodup := by
  induction es generalizing m with
  | nil => exact h
  | cons e es ih =>
    rw [fillBase_cons]
    exact ih (nodup_akeys_jset _ _ _ h)

theorem nodup_akeys_fillIncoming {m : List (String × JsVal)} {es : List JsVal}
    (h : (akeys m).Nodup) : (akeys (fillIncoming m es)).Nodup := by
  induction es generalizing m with
  | nil => exact h
  | cons e es ih =>
    rw [fillIncoming_cons]
    exact ih (nodup_akeys_jset _ _ _ h)

theorem fillBase_eq_append {m : List (String × JsVal)} {es : List JsVal}
    (hnd : (es.map eid).Nodup) (hfresh : ∀ e ∈ es, eid e ∉ akeys m) :
    fillBase m es = m ++ es.map (fun e => (eid e, e)) := by
  induction es generalizing m with
  | nil => simp [fillBase_nil]
  | cons e es ih =>
    rw [fillBase_cons,
      jset_of_not_mem _ _ _ (hfresh e (List.mem_cons_self e es))]
    rw [List.map_cons] at hnd
    rcases List.nodup_cons.mp hnd with ⟨hh, ht⟩
    rw [ih ht ?_]
    · simp
    · intro e' he'
      simp only [akeys, List.map_append, List.map_cons, List.map_nil, List.mem_append,
        List.mem_cons]
      push_neg
      refine ⟨hfresh e' (List.mem_cons_of_mem e he'), ?_, ?_⟩
      · intro hq
        exact hh (hq ▸ List.mem_map_of_mem eid he')
      · simp

theorem fillBase_empty_eq {es : List JsVal} (hnd : (es.map eid).Nodup) :
    fillBase [] es = es.map (fun e => (eid e, e)) := by
  rw [fillBase_eq_append hnd (fun e _ => by simp [akeys])]
  simp

theorem jget_map_pair (es : List JsVal) (k : String) :
    jget (es.map (fun e => (eid e, e))) k = es.find? (fun e => eid e == k) := by
  induction es with
  | nil => rfl
  | cons e es ih =>
    simp only [List.map_cons, jget, List.find?]
    by_cases h : eid e = k
    · simp [h]
    · rw [if_neg h, ih]
      have : (eid e == k) = false := by
        simp [h]
      rw [this]

theorem jget_fillIncoming {es : List JsVal} {m : List (String × JsVal)} {k : String}
    (hnd : (es.map eid).Nodup) :
    jget (fillIncoming m es) k =
      match es.find? (fun e => eid e == k) with
      | some e => some (resolveEntity (jget m k) e)
      | none => jget m k := by
  induction es generalizing m with
  | nil => rfl
  | cons e es ih =>
    rw [List.map_cons] at hnd
    rcases List.nodup_cons.mp hnd with ⟨hh, ht⟩
    rw [fillIncoming_cons]
    by_cases hk : eid e = k
    · have hfind : (e :: es).find? (fun e => eid e == k) = some e := by
        simp [List.find?, hk]
      rw [hfind, ih ht]
      have hnone : es.find? (fun e' => eid e' == k) = none := by
        rw [List.find?_eq_none]
        intro x hx
        simp only [beq_iff_eq]
        intro he
        apply hh
        rw [hk]
        exact he ▸ List.mem_map_of_mem eid hx
      rw [hnone, ← hk, jget_jset_self]
    · have hb : (eid e == k) = false := by simp [hk]
      have hfind : (e :: es).find? (fun e => eid e == k) = es.find? (fun e => eid e == k) := by
        simp [List.find?, hb]
      rw [hfind, ih ht, jget_jset_ne _ _ _ _ (fun hq => hk hq.symm)]

theorem fillIncoming_fixed {m : List (String × JsVal)} {es : List JsVal}
    (h : ∀ e ∈ es, jget m (eid e) = some e) : fillIncoming m es = m := by
  induction es with
  | nil => rfl
  | cons e es ih =>
    rw [fillIncoming_cons, h e (List.mem_cons_self e es), resolveEntity_self,
      jset_eq_self _ _ _ (h e (List.mem_cons_self e es))]
    exact ih (fun e' he' => h e' (List.mem_cons_of_mem e he'))

theorem find?_map_pair_self {es : List JsVal} {e : JsVal}
    (hnd : (es.map eid).Nodup) (he : e ∈ es) :
    es.find? (fun x => eid x == eid e) = some e := by
  induction es with
  | nil => simp at he
  | cons y ys ih =>
    rw [List.map_cons] at hnd
    rcases List.nodup_cons.mp hnd with ⟨hh, ht⟩
    rcases List.mem_cons.mp he with he | he
    · subst he
      simp [List.find?]
    · have hne : (eid y == eid e) = false := by
        simp only [beq_eq_false_iff_ne, ne_eq]
        intro hq
        exact hh (hq ▸ List.mem_map_of_mem eid he)
      simp only [List.find?, hne]
      exact ih ht he
end Canvas

/-! ### Association lists with equal lookups are permutations -/

theorem first_occ_split {α : Type} {m : List (String × α)} {k : String}
    (h : k ∈ akeys m) :
    ∃ pre w post, m = pre ++ (k, w) :: post ∧ k ∉ akeys pre := by
  induction m with
  | nil => simp [akeys] at h
  | cons p rest ih =>
    obtain ⟨k1, v1⟩ := p
    by_cases h1 : k1 = k
    · subst h1
      exact ⟨[], v1, rest, rfl, by simp [akeys]⟩
    · rw [akeys_cons] at h
      rcases List.mem_cons.mp h with h | h
      · exact absurd h.symm h1
      · obtain ⟨pre, w, post, hsplit, hpre⟩ := ih h
        refine ⟨(k1, v1) :: pre, w, post, by rw [hsplit]; rfl, ?_⟩
        rw [akeys_cons]
        intro hmem
        rcases List.mem_cons.mp hmem with hmem | hmem
        · exact h1 hmem.symm
        · exact hpre hmem

theorem jget_append_first {α : Type} {pre : List (String × α)} {k : String} {w : α}
    (post : List (String × α)) (h : k ∉ akeys pre) :
    jget (pre ++ (k, w) :: post) k = some w := by
  induction pre with
  | nil => simp [jget]
  | cons p rest ih =>
    obtain ⟨k1, v1⟩ := p
    rw [akeys_cons] at h
    have h1 : ¬ k1 = k := fun hh => h (by simp [hh])
    have h2 : k ∉ akeys rest := fun hh => h (List.mem_cons_of_mem _ hh)
    simpa [jget, h1] using ih h2

theorem jget_append_skip {α : Type} (pre post : List (String × α)) (k k' : String) (w : α)
    (h : k' ≠ k) :
    jget (pre ++ (k, w) :: post) k' = jget (pre ++ post) k' := by
  induction pre with
  | nil =>
    simp only [List.nil_append, jget]
    rw [if_neg (fun hh => h hh.symm)]
  | cons p rest ih =>
    obtain ⟨k1, v1⟩ := p
    by_cases h1 : k1 = k'
    · simp [jget, h1]
    · simpa [jget, h1] using ih

theorem assoc_perm {α : Type} (m1 : List (String × α)) :
    ∀ (m2 : List (String × α)), (akeys m1).Nodup → (akeys m2).Nodup →
    (∀ k, k ∈ akeys m1 ↔ k ∈ akeys m2) →
    (∀ k, jget m1 k = jget m2 k) → m1.Perm m2 := by
  induction m1 with
  | nil =>
    intro m2 _ _ hk _
    cases m2 with
    | nil => exact List.Perm.refl _
    | cons p rest =>
      exfalso
      have : p.1 ∈ akeys ((p :: rest)) := by simp [akeys]
      exact (by simpa [akeys] using (hk p.1).mpr this)
  | cons p m1' ih =>
    obtain ⟨k, v⟩ := p
    intro m2 h1 h2 hk hget
    have hkm2 : k ∈ akeys m2 := (hk k).mp (by simp [akeys_cons])
    obtain ⟨pre, w, post, hsplit, hpre⟩ := first_occ_split hkm2
    subst hsplit
    have hg1 : jget ((k, v) :: m1') k = some v := by simp [jget]
    have hg2 : jget (pre ++ (k, w) :: post) k = some w := jget_append_first post hpre
    have hw : w = v := by
      have := (hget k).symm.trans hg1
      rw [hg2] at this
      exact Option.some.inj this
    subst hw
    rw [akeys_cons, List.nodup_cons] at h1
    obtain ⟨hknotin, hnd1⟩ := h1
    have hakeys2 : akeys (pre ++ (k, w) :: post) = akeys pre ++ k :: akeys post := by
      simp [akeys]
    rw [hakeys2] at h2
    rcases List.nodup_append.mp h2 with ⟨hndpre, hndkpost, hdisj⟩
    rcases List.nodup_cons.mp hndkpost with ⟨hkpost, hndpost⟩
    have hnd12 : (akeys (pre ++ post)).Nodup := by
      have : akeys (pre ++ post) = akeys pre ++ akeys post := by simp [akeys]
      rw [this, List.nodup_append]
      exact ⟨hndpre, hndpost, fun a ha hb => hdisj ha (List.mem_cons_of_mem _ hb)⟩
    have hknotpp : k ∉ akeys (pre ++ post) := by
      have : akeys (pre ++ post) = akeys pre ++ akeys post := by simp [akeys]
      rw [this, List.mem_append]
      rintro (hq | hq)
      · exact hpre hq
      · exact hkpost hq
    have hperm : m1'.Perm (pre ++ post) := by
      refine ih (pre ++ post) hnd1 hnd12 ?_ ?_
      · intro k'
        by_cases hk' : k' = k
        · subst hk'
          constructor
          · intro hq; exact absurd hq hknotin
          · intro hq; exact absurd hq hknotpp
        · have hstep : k' ∈ akeys m1' ↔ k' ∈ akeys ((k, w) :: m1') := by
            rw [akeys_cons]
            simp only [List.mem_cons]
            constructor
            · exact Or.inr
            · rintro (hq | hq)
              · exact absurd hq hk'
              · exact hq
          rw [hstep, hk k', hakeys2]
          have : akeys (pre ++ post) = akeys pre ++ akeys post := by simp [akeys]
          rw [this]
          simp only [List.mem_append, List.mem_cons]
          constructor
          · rintro (hq | hq)
            · exact Or.inl hq
            · rcases hq with hq | hq
              · exact absurd hq hk'
              · exact Or.inr hq
          · rintro (hq | hq)
            · exact Or.inl hq
            · exact Or.inr (Or.inr hq)
      · intro k'
        by_cases hk' : k' = k
        · subst hk'
          rw [jget_eq_none_of_not_mem _ _ hknotin, jget_eq_none_of_not_mem _ _ hknotpp]
        · have hstep : jget m1' k' = jget ((k, w) :: m1') k' := by
            show jget m1' k' = if k = k' then some w else jget m1' k'
            rw [if_neg (fun hh => hk' hh.symm)]
          rw [hstep, hget k', jget_append_skip _ _ _ _ _ hk']
    exact (hperm.cons (k, w)).trans List.perm_middle.symm

namespace Canvas

/-! ### Sorted lists with distinct ids are determined by their members -/


theorem sorted_nodup_perm_eq {l1 l2 : List JsVal} (hp : l1.Perm l2)
    (s1 : l1.Pairwise (fun a b => entLe a b = true))
    (s2 : l2.Pairwise (fun a b => entLe a b = true))
    (n1 : (l1.map eid).Nodup) : l1 = l2 := by
  have hr1 : l1.Pairwise (fun a b => entLe a b = true ∧ eid a ≠ eid b) := by
    have hne : l1.Pairwise (fun a b => eid a ≠ eid b) := List.pairwise_map.mp n1
    exact s1.and hne
  have n2 : (l2.map eid).Nodup := ((hp.map eid).nodup_iff).mp n1
  have hr2 : l2.Pairwise (fun a b => entLe a b = true ∧ eid a ≠ eid b) := by
    have hne : l2.Pairwise (fun a b => eid a ≠ eid b) := List.pairwise_map.mp n2
    exact s2.and hne
  haveI : IsAntisymm JsVal (fun a b => entLe a b = true ∧ eid a ≠ eid b) := by
    constructor
    intro a b hab hba
    exact absurd (strLe_antisymm hab.1 hba.1) hab.2
  exact List.eq_of_perm_of_sorted hp hr1 hr2

theorem map_eid_values {m : List (String × JsVal)}
    (hinv : ∀ p ∈ m, eid p.2 = p.1) :
    (m.map Prod.snd).map eid = akeys m := by
  rw [List.map_map]
  exact List.map_congr_left hinv

theorem mergeEntities_comm {xs ys : List JsVal}
    (hnx : (xs.map eid).Nodup) (hny : (ys.map eid).Nodup)
    (hsym : ∀ a ∈ xs, ∀ b ∈ ys, eid a = eid b →
      resolveEntity (some a) b = resolveEntity (some b) a) :
    mergeEntities xs ys = mergeEntities ys xs := by
  have hinv1 : ∀ p ∈ fillIncoming (fillBase [] xs) ys, eid p.2 = p.1 :=
    fillIncoming_keyInv (fillBase_keyInv (by simp))
  have hinv2 : ∀ p ∈ fillIncoming (fillBase [] ys) xs, eid p.2 = p.1 :=
    fillIncoming_keyInv (fillBase_keyInv (by simp))
  have hnd1 : (akeys (fillIncoming (fillBase [] xs) ys)).Nodup :=
    nodup_akeys_fillIncoming (nodup_akeys_fillBase (by simp [akeys]))
  have hnd2 : (akeys (fillIncoming (fillBase [] ys) xs)).Nodup :=
    nodup_akeys_fillIncoming (nodup_akeys_fillBase (by simp [akeys]))
  have hkeys : ∀ k, k ∈ akeys (fillIncoming (fillBase [] xs) ys) ↔
      k ∈ akeys (fillIncoming (fillBase [] ys) xs) := by
    intro k
    rw [mem_akeys_fillIncoming, mem_akeys_fillBase,
      mem_akeys_fillIncoming, mem_akeys_fillBase]
    simp only [akeys, List.map_nil, List.not_mem_nil, false_or]
    tauto
  have hlook : ∀ k, jget (fillIncoming (fillBase [] xs) ys) k =
      jget (fillIncoming (fillBase [] ys) xs) k := by
    intro k
    rw [jget_fillIncoming hny, jget_fillIncoming hnx,
      fillBase_empty_eq hnx, fillBase_empty_eq hny, jget_map_pair, jget_map_pair]
    cases hfx : xs.find? (fun e => eid e == k) with
    | none =>
      cases hfy : ys.find? (fun e => eid e == k) with
      | none => rfl
      | some b => rfl
    | some a =>
      cases hfy : ys.find? (fun e => eid e == k) with
      | none => rfl
      | some b =>
        show some (resolveEntity (some a) b) = some (resolveEntity (some b) a)
        have ha : a ∈ xs := List.mem_of_find?_eq_some hfx
        have hb : b ∈ ys := List.mem_of_find?_eq_some hfy
        have hea : eid a = k := by
          have := List.find?_some hfx
          simpa using this
        have heb : eid b = k := by
          have := List.find?_some hfy
          simpa using this
        rw [hsym a ha b hb (hea.trans heb.symm)]
  have hperm : (fillIncoming (fillBase [] xs) ys).Perm (fillIncoming (fillBase [] ys) xs) :=
    assoc_perm _ _ hnd1 hnd2 hkeys hlook
  have hvals : ((fillIncoming (fillBase [] xs) ys).map Prod.snd).Perm
      ((fillIncoming (fillBase [] ys) xs).map Prod.snd) := hperm.map Prod.snd
  show sortEntities _ = sortEntities _
  refine sorted_nodup_perm_eq ?_ (sortEntities_pairwise _) (sortEntities_pairwise _) ?_
  · exact (sortEntities_perm _).trans (hvals.trans (sortEntities_perm _).symm)
  · have hids : ((fillIncoming (fillBase [] xs) ys).map Prod.snd).map eid =
        akeys (fillIncoming (fillBase [] xs) ys) := map_eid_values hinv1
    have hp : ((sortEntities ((fillIncoming (fillBase [] xs) ys).map Prod.snd)).map eid).Perm
        (((fillIncoming (fillBase [] xs) ys).map Prod.snd).map eid) :=
      (sortEntities_perm _).map eid
    rw [hp.nodup_iff, hids]
    exact hnd1

theorem mergeEntities_self {xs : List JsVal}
    (hx : xs.Pairwise (fun a b => entLe a b = true))
    (hnx : (xs.map eid).Nodup) : mergeEntities xs xs = xs := by
  show sortEntities ((fillIncoming (fillBase [] xs) xs).map Prod.snd) = xs
  rw [fillBase_empty_eq hnx]
  rw [fillIncoming_fixed ?_]
  · rw [show (xs.map (fun e => (eid e, e))).map Prod.snd = xs by
      rw [List.map_map]
      exact List.map_congr_left (fun e _ => rfl) |>.trans (List.map_id xs)]
    exact sortEntities_of_pairwise hx
  · intro e he
    rw [jget_map_pair]
    exact find?_map_pair_self hnx he
end Canvas

/-! ### Object-spread lemmas -/

theorem foldl_jset_append {α : Type} {rest : List (String × α)} :
    ∀ {acc : List (String × α)}, ((rest.map Prod.fst).Nodup) →
    (∀ p ∈ rest, p.1 ∉ akeys acc) →
    rest.foldl (fun m kv => jset m kv.1 kv.2) acc = acc ++ rest := by
  induction rest with
  | nil => intro acc _ _; simp
  | cons p rest ih =>
    intro acc hnd hdisj
    obtain ⟨k, v⟩ := p
    rw [List.map_cons] at hnd
    rcases List.nodup_cons.mp hnd with ⟨hh, ht⟩
    show rest.foldl (fun m kv => jset m kv.1 kv.2) (jset acc k v) = acc ++ (k, v) :: rest
    rw [jset_of_not_mem _ _ _ (hdisj (k, v) (List.mem_cons_self _ _))]
    rw [ih ht ?_]
    · simp
    · intro p hp
      have h1 : p.1 ∉ akeys acc := hdisj p (List.mem_cons_of_mem _ hp)
      have h2 : p.1 ≠ k := by
        intro hq
        apply hh
        rw [← hq]
        exact List.mem_map.mpr ⟨p, hp, rfl⟩
      simp only [akeys, List.map_append, List.map_cons, List.map_nil, List.mem_append,
        List.mem_cons]
      push_neg
      exact ⟨by simpa [akeys] using h1, h2, by simp⟩

theorem objLit_self {A : List (String × JsVal)} (h : (akeys A).Nodup) :
    objLit A = A := by
  show A.foldl (fun m kv => jset m kv.1 kv.2) [] = A
  rw [foldl_jset_append (by simpa [akeys] using h) (by simp [akeys])]
  simp

theorem objLit_append (A B : List (String × JsVal)) :
    objLit (A ++ B) = B.foldl (fun m kv => jset m kv.1 kv.2) (objLit A) := by
  show (A ++ B).foldl _ [] = _
  rw [List.foldl_append]
  rfl

theorem akeys_foldl_jset {α : Type} {B : List (String × α)} :
    ∀ {acc : List (String × α)}, (∀ p ∈ B, p.1 ∈ akeys acc) →
    akeys (B.foldl (fun m kv => jset m kv.1 kv.2) acc) = akeys acc := by
  induction B with
  | nil => intro acc _; rfl
  | cons p B ih =>
    intro acc hmem
    obtain ⟨k, v⟩ := p
    show akeys (B.foldl _ (jset acc k v)) = akeys acc
    rw [ih ?_, akeys_jset_of_mem _ _ _ (hmem (k, v) (List.mem_cons_self _ _))]
    intro p hp
    rw [akeys_jset_of_mem _ _ _ (hmem (k, v) (List.mem_cons_self _ _))]
    exact hmem p (List.mem_cons_of_mem _ hp)

theorem jget_foldl_jset {α : Type} {B : List (String × α)} :
    ∀ {acc : List (String × α)} {k : String}, ((B.map Prod.fst).Nodup) →
    jget (B.foldl (fun m kv => jset m kv.1 kv.2) acc) k =
      match B.find? (fun kv => kv.1 == k) with
      | some kv => some kv.2
      | none => jget acc k := by
  induction B with
  | nil => intro acc k _; rfl
  | cons p B ih =>
    intro acc k hnd
    obtain ⟨k1, v1⟩ := p
    rw [List.map_cons] at hnd
    rcases List.nodup_cons.mp hnd with ⟨hh, ht⟩
    show jget (B.foldl _ (jset acc k1 v1)) k = _
    rw [ih ht]
    by_cases hk : k1 = k
    · subst hk
      have hfind : ((k1, v1) :: B).find? (fun kv => kv.1 == k1) = some (k1, v1) := by
        simp [List.find?]
      rw [hfind]
      have hnone : B.find? (fun kv => kv.1 == k1) = none := by
        rw [List.find?_eq_none]
        intro p hp
        simp only [beq_iff_eq]
        intro hq
        apply hh
        rw [← hq]
        exact List.mem_map.mpr ⟨p, hp, rfl⟩
      rw [hnone, jget_jset_self]
    · have hb : ((k1, v1).1 == k) = false := by simp [hk]
      have hfind : ((k1, v1) :: B).find? (fun kv => kv.1 == k) =
          B.find? (fun kv => kv.1 == k) := by
        simp [List.find?, hb]
      rw [hfind, jget_jset_ne _ _ _ _ (fun hq => hk hq.symm)]

theorem jget_eq_find? {α : Type} (m : List (String × α)) (k : String) :
    jget m k = (m.find? (fun kv => kv.1 == k)).map Prod.snd := by
  induction m with
  | nil => rfl
  | cons p rest ih =>
    obtain ⟨k1, v1⟩ := p
    by_cases h : k1 = k
    · subst h
      simp [jget, List.find?]
    · have hb : ((k1, v1).1 == k) = false := by simp [h]
      simp only [jget, if_neg h, List.find?, hb]
      exact ih

theorem assoc_ext {α : Type} (m1 : List (String × α)) :
    ∀ (m2 : List (String × α)), akeys m1 = akeys m2 → (akeys m1).Nodup →
    (∀ k, jget m1 k = jget m2 k) → m1 = m2 := by
  induction m1 with
  | nil =>
    intro m2 hkeys _ _
    cases m2 with
    | nil => rfl
    | cons p rest => exact absurd hkeys (by simp [akeys])
  | cons p m1' ih =>
    intro m2 hkeys hnd hget
    obtain ⟨k, v⟩ := p
    cases m2 with
    | nil => exact absurd hkeys (by simp [akeys])
    | cons q m2' =>
      obtain ⟨k2, w⟩ := q
      rw [akeys_cons, akeys_cons] at hkeys
      have hk : k = k2 := by injection hkeys
      subst hk
      have htkeys : akeys m1' = akeys m2' := by injection hkeys
      rw [akeys_cons, List.nodup_cons] at hnd
      obtain ⟨hknotin, hnd'⟩ := hnd
      have hv : v = w := by
        have h1 : jget ((k, v) :: m1') k = some v := by simp [jget]
        have h2 : jget ((k, w) :: m2') k = some w := by simp [jget]
        have := (hget k).symm.trans h1
        rw [h2] at this
        exact Option.some.inj this.symm
      subst hv
      have : m1' = m2' := by
        refine ih m2' htkeys hnd' ?_
        intro k'
        by_cases hk' : k' = k
        · subst hk'
          rw [jget_eq_none_of_not_mem _ _ hknotin,
            jget_eq_none_of_not_mem _ _ (htkeys ▸ hknotin)]
        · have h1 : jget m1' k' = jget ((k, v) :: m1') k' := by
            show _ = if k = k' then some v else jget m1' k'
            rw [if_neg (fun hh => hk' hh.symm)]
          have h2 : jget m2' k' = jget ((k, v) :: m2') k' := by
            show _ = if k = k' then some v else jget m2' k'
            rw [if_neg (fun hh => hk' hh.symm)]
          rw [h1, h2, hget k']
      rw [this]

theorem spread_eq_second {A B : List (String × JsVal)}
    (hkeys : akeys A = akeys B) (hndA : (akeys A).Nodup) :
    objLit (A ++ B) = B := by
  have hndB : (akeys B).Nodup := hkeys ▸ hndA
  rw [objLit_append, objLit_self hndA]
  have hRk : akeys (B.foldl (fun m kv => jset m kv.1 kv.2) A) = akeys A := by
    refine akeys_foldl_jset ?_
    intro p hp
    rw [hkeys]
    exact List.mem_map_of_mem Prod.fst hp
  refine assoc_ext _ B (hRk.trans hkeys) (hRk ▸ hndA) ?_
  intro k
  rw [jget_foldl_jset (by simpa [akeys] using hndB)]
  cases hf : B.find? (fun kv => kv.1 == k) with
  | some kv =>
    rw [jget_eq_find? B k, hf]
    rfl
  | none =>
    rw [jget_eq_find? B k, hf]
    have hknotB : k ∉ akeys B := by
      intro hmem
      obtain ⟨w, hw⟩ := jget_isSome_of_mem B k hmem
      rw [jget_eq_find? B k, hf] at hw
      exact Option.noConfusion hw
    rw [jget_eq_none_of_not_mem _ _ (hkeys ▸ hknotB : k ∉ akeys A)]
    rfl

namespace Canvas

theorem akeys_maskNE (m : List (String × JsVal)) : akeys (maskNE m) = akeys m := by
  induction m with
  | nil => rfl
  | cons p rest ih =>
    obtain ⟨k, v⟩ := p
    by_cases h : k = "nodes" ∨ k = "edges"
    · simp only [maskNE, List.map_cons, if_pos h, akeys_cons] at *
      rw [ih]
    · simp only [maskNE, List.map_cons, if_neg h, akeys_cons] at *
      rw [ih]

theorem unmask {A : List (String × JsVal)} :
    ∀ {B : List (String × JsVal)}, maskNE A = maskNE B →
    (akeys A).Nodup → (akeys B).Nodup →
    jget A "nodes" = jget B "nodes" → jget A "edges" = jget B "edges" → A = B := by
  induction A with
  | nil =>
    intro B hm _ _ _ _
    cases B with
    | nil => rfl
    | cons q rest => exact absurd hm (by simp [maskNE])
  | cons p A' ih =>
    intro B hm hndA hndB hn he
    obtain ⟨k, v⟩ := p
    cases B with
    | nil => exact absurd hm (by simp [maskNE])
    | cons q B' =>
      obtain ⟨k2, w⟩ := q
      have hk : k = k2 := by
        have := congrArg akeys hm
        rw [akeys_maskNE, akeys_maskNE, akeys_cons, akeys_cons] at this
        injection this
      subst hk
      rw [akeys_cons, List.nodup_cons] at hndA hndB
      obtain ⟨hkA, hndA'⟩ := hndA
      obtain ⟨hkB, hndB'⟩ := hndB
      have hmtail : maskNE A' = maskNE B' := by
        simp only [maskNE, List.map_cons] at hm
        injection hm
      by_cases hkn : k = "nodes"
      · subst hkn
        have hv : v = w := by
          have h1 : jget (("nodes", v) :: A') "nodes" = some v := by simp [jget]
          have h2 : jget (("nodes", w) :: B') "nodes" = some w := by simp [jget]
          rw [h1, h2] at hn
          exact Option.some.inj hn
        subst hv
        have htn : jget A' "nodes" = jget B' "nodes" := by
          rw [jget_eq_none_of_not_mem _ _ hkA, jget_eq_none_of_not_mem _ _ hkB]
        have hte : jget A' "edges" = jget B' "edges" := by
          have h1 : jget (("nodes", v) :: A') "edges" = jget A' "edges" := by
            simp [jget]
          have h2 : jget (("nodes", v) :: B') "edges" = jget B' "edges" := by
            simp [jget]
          rw [h1, h2] at he
          exact he
        rw [ih hmtail hndA' hndB' htn hte]
      · by_cases hke : k = "edges"
        · subst hke
          have hv : v = w := by
            have h1 : jget (("edges", v) :: A') "edges" = some v := by simp [jget]
            have h2 : jget (("edges", w) :: B') "edges" = some w := by simp [jget]
            rw [h1, h2] at he
            exact Option.some.inj he
          subst hv
          have hte : jget A' "edges" = jget B' "edges" := by
            rw [jget_eq_none_of_not_mem _ _ hkA, jget_eq_none_of_not_mem _ _ hkB]
          have htn : jget A' "nodes" = jget B' "nodes" := by
            have h1 : jget (("edges", v) :: A') "nodes" = jget A' "nodes" := by
              simp [jget]
            have h2 : jget (("edges", v) :: B') "nodes" = jget B' "nodes" := by
              simp [jget]
            rw [h1, h2] at hn
            exact hn
          rw [ih hmtail hndA' hndB' htn hte]
        · have hnmask : ¬ (k = "nodes" ∨ k = "edges") := by
            rintro (hq | hq)
            · exact hkn hq
            · exact hke hq
          have hv : v = w := by
            simp only [maskNE, List.map_cons, if_neg hnmask] at hm
            have := (List.cons.inj hm).1
            exact (Prod.mk.inj this).2
          subst hv
          have htn : jget A' "nodes" = jget B' "nodes" := by
            have h1 : jget ((k, v) :: A') "nodes" = jget A' "nodes" := by
              simp [jget, hkn]
            have h2 : jget ((k, v) :: B') "nodes" = jget B' "nodes" := by
              simp [jget, hkn]
            rw [h1, h2] at hn
            exact hn
          have hte : jget A' "edges" = jget B' "edges" := by
            have h1 : jget ((k, v) :: A') "edges" = jget A' "edges" := by
              simp [jget, hke]
            have h2 : jget ((k, v) :: B') "edges" = jget B' "edges" := by
              simp [jget, hke]
            rw [h1, h2] at he
            exact he
          rw [ih hmtail hndA' hndB' htn hte]

theorem jset_cons_eq {α : Type} (k : String) (w v : α) (rest : List (String × α)) :
    jset ((k, w) :: rest) k v = (k, v) :: rest := by
  simp [jset]

theorem jset_cons_ne {α : Type} {k key : String} (h : ¬ k = key) (w v : α)
    (rest : List (String × α)) :
    jset ((k, w) :: rest) key v = (k, w) :: jset rest key v := by
  simp [jset, h]

theorem maskNE_cons_hit {k : String} (h : k = "nodes" ∨ k = "edges") (v : JsVal)
    (rest : List (String × JsVal)) :
    maskNE ((k, v) :: rest) = (k, JsVal.null) :: maskNE rest := by
  simp only [maskNE, List.map_cons, if_pos h]

theorem maskNE_cons_miss {k : String} (h : ¬ (k = "nodes" ∨ k = "edges")) (v : JsVal)
    (rest : List (String × JsVal)) :
    maskNE ((k, v) :: rest) = (k, v) :: maskNE rest := by
  simp only [maskNE, List.map_cons, if_neg h]

theorem maskNE_jset {A : List (String × JsVal)} :
    ∀ {B : List (String × JsVal)}, maskNE A = maskNE B →
    ∀ (key : String), (key = "nodes" ∨ key = "edges") → ∀ (v : JsVal),
    maskNE (jset A key v) = maskNE (jset B key v) := by
  induction A with
  | nil =>
    intro B hm key hkey v
    cases B with
    | nil => rfl
    | cons q rest => exact absurd hm (by simp [maskNE])
  | cons p A' ih =>
    intro B hm key hkey v
    obtain ⟨k, va⟩ := p
    cases B with
    | nil => exact absurd hm (by simp [maskNE])
    | cons q B' =>
      obtain ⟨k2, vb⟩ := q
      have hk : k = k2 := by
        have := congrArg akeys hm
        rw [akeys_maskNE, akeys_maskNE, akeys_cons, akeys_cons] at this
        injection this
      subst hk
      have hmtail : maskNE A' = maskNE B' := by
        by_cases hmk : k = "nodes" ∨ k = "edges"
        · rw [maskNE_cons_hit hmk, maskNE_cons_hit hmk] at hm
          exact (List.cons.inj hm).2
        · rw [maskNE_cons_miss hmk, maskNE_cons_miss hmk] at hm
          exact (List.cons.inj hm).2
      by_cases hkk : k = key
      · subst hkk
        rw [jset_cons_eq, jset_cons_eq]
        rw [maskNE_cons_hit hkey, maskNE_cons_hit hkey]
        exact congrArg _ hmtail
      · rw [jset_cons_ne hkk, jset_cons_ne hkk]
        have hstep := ih hmtail key hkey v
        by_cases hmk : k = "nodes" ∨ k = "edges"
        · rw [maskNE_cons_hit hmk, maskNE_cons_hit hmk, hstep]
        · have hva : va = vb := by
            rw [maskNE_cons_miss hmk, maskNE_cons_miss hmk] at hm
            exact (Prod.mk.inj (List.cons.inj hm).1).2
          subst hva
          rw [maskNE_cons_miss hmk, maskNE_cons_miss hmk, hstep]

theorem nodesOf_merge (a b : JsVal) :
    nodesOf (mergeCanvasModels a b) = mergeEntities (canonNodes a) (canonNodes b) := by
  unfold nodesOf
  rw [show getField (mergeCanvasModels a b) "nodes" =
      jget (jset (jset (objLit (kvsOf (canonicalizeCanvasModel a) ++
        kvsOf (canonicalizeCanvasModel b)))
        "nodes" (.arr (mergeEntities (canonNodes a) (canonNodes b))))
        "edges" (.arr (mergeEntities (canonEdges a) (canonEdges b)))) "nodes" from rfl]
  rw [jget_jset_ne _ _ _ _ (by decide : ("nodes" : String) ≠ "edges"), jget_jset_self]

theorem edgesOf_merge (a b : JsVal) :
    edgesOf (mergeCanvasModels a b) = mergeEntities (canonEdges a) (canonEdges b) := by
  unfold edgesOf
  rw [show getField (mergeCanvasModels a b) "edges" =
      jget (jset (jset (objLit (kvsOf (canonicalizeCanvasModel a) ++
        kvsOf (canonicalizeCanvasModel b)))
        "nodes" (.arr (mergeEntities (canonNodes a) (canonNodes b))))
        "edges" (.arr (mergeEntities (canonEdges a) (canonEdges b)))) "edges" from rfl]
  rw [jget_jset_self]

theorem mergeModels_self_aux (x : JsVal)
    (hk : (akeys (canonKvs x)).Nodup)
    (hn : ((canonNodes x).map eid).Nodup)
    (he : ((canonEdges x).map eid).Nodup) :
    mergeCanvasModels x x = canonicalizeCanvasModel x := by
  have hmn : mergeEntities (canonNodes x) (canonNodes x) = canonNodes x :=
    mergeEntities_self (canonNodes_pairwise x) hn
  have hme : mergeEntities (canonEdges x) (canonEdges x) = canonEdges x :=
    mergeEntities_self (canonEdges_pairwise x) he
  show JsVal.obj (jset (jset (objLit (canonKvs x ++ canonKvs x))
      "nodes" (.arr (mergeEntities (canonNodes x) (canonNodes x))))
      "edges" (.arr (mergeEntities (canonEdges x) (canonEdges x)))) =
    JsVal.obj (canonKvs x)
  rw [hmn, hme, spread_eq_second rfl hk]
  have h1 : jset (canonKvs x) "nodes" (.arr (canonNodes x)) = canonKvs x := by
    apply jset_eq_self
    rw [canonNodes_eq]
    exact jget_canonKvs_nodes x
  rw [h1]
  have h2 : jset (canonKvs x) "edges" (.arr (canonEdges x)) = canonKvs x := by
    apply jset_eq_self
    rw [canonEdges_eq]
    exact jget_canonKvs_edges x
  rw [h2]

theorem mergeModels_comm_aux (a b : JsVal)
    (hmask : maskNE (canonKvs a) = maskNE (canonKvs b))
    (hka : (akeys (canonKvs a)).Nodup)
    (hkb : (akeys (canonKvs b)).Nodup)
    (hna : ((canonNodes a).map eid).Nodup) (hnb : ((canonNodes b).map eid).Nodup)
    (hea : ((canonEdges a).map eid).Nodup) (heb : ((canonEdges b).map eid).Nodup)
    (hsN : ∀ e1 ∈ canonNodes a, ∀ e2 ∈ canonNodes b, eid e1 = eid e2 → pairCond e1 e2)
    (hsE : ∀ e1 ∈ canonEdges a, ∀ e2 ∈ canonEdges b, eid e1 = eid e2 → pairCond e1 e2) :
    mergeCanvasModels a b = mergeCanvasModels b a := by
  have hkeys : akeys (canonKvs a) = akeys (canonKvs b) := by
    rw [← akeys_maskNE, hmask, akeys_maskNE]
  have hMn : mergeEntities (canonNodes a) (canonNodes b) =
      mergeEntities (canonNodes b) (canonNodes a) := by
    refine mergeEntities_comm hna hnb ?_
    intro e1 h1 e2 h2 hid
    exact resolveEntity_symm e1 e2 (hsN e1 h1 e2 h2 hid).1
      (hsN e1 h1 e2 h2 hid).2.1 (hsN e1 h1 e2 h2 hid).2.2
  have hMe : mergeEntities (canonEdges a) (canonEdges b) =
      mergeEntities (canonEdges b) (canonEdges a) := by
    refine mergeEntities_comm hea heb ?_
    intro e1 h1 e2 h2 hid
    exact resolveEntity_symm e1 e2 (hsE e1 h1 e2 h2 hid).1
      (hsE e1 h1 e2 h2 hid).2.1 (hsE e1 h1 e2 h2 hid).2.2
  show JsVal.obj (jset (jset (objLit (canonKvs a ++ canonKvs b))
      "nodes" (.arr (mergeEntities (canonNodes a) (canonNodes b))))
      "edges" (.arr (mergeEntities (canonEdges a) (canonEdges b)))) =
    JsVal.obj (jset (jset (objLit (canonKvs b ++ canonKvs a))
      "nodes" (.arr (mergeEntities (canonNodes b) (canonNodes a))))
      "edges" (.arr (mergeEntities (canonEdges b) (canonEdges a))))
  rw [spread_eq_second hkeys hka, spread_eq_second hkeys.symm hkb, hMn, hMe]
  congr 1
  refine unmask ?_ ?_ ?_ ?_ ?_
  · exact maskNE_jset (maskNE_jset hmask.symm "nodes" (Or.inl rfl) _) "edges" (Or.inr rfl) _
  · exact nodup_akeys_jset _ _ _ (nodup_akeys_jset _ _ _ hkb)
  · exact nodup_akeys_jset _ _ _ (nodup_akeys_jset _ _ _ hka)
  · rw [jget_jset_ne _ _ _ _ (by decide : ("nodes" : String) ≠ "edges"), jget_jset_self,
      jget_jset_ne _ _ _ _ (by decide : ("nodes" : String) ≠ "edges"), jget_jset_self]
  · rw [jget_jset_self, jget_jset_self]

theorem mem_mergeEntities {xs ys : List JsVal} {e : JsVal}
    (h : e ∈ mergeEntities xs ys) : e ∈ xs ∨ e ∈ ys := by
  have h2 : e ∈ (fillIncoming (fillBase [] xs) ys).map Prod.snd :=
    (sortEntities_perm _).subset h
  rcases fillIncoming_values h2 with h3 | h3
  · rcases fillBase_values h3 with h4 | h4
    · simp at h4
    · exact Or.inl h4
  · exact Or.inr h3

theorem ids_mergeEntities (xs ys : List JsVal) (i : String) :
    i ∈ (mergeEntities xs ys).map eid ↔ i ∈ xs.map eid ∨ i ∈ ys.map eid := by
  have hperm : ((mergeEntities xs ys).map eid).Perm
      (((fillIncoming (fillBase [] xs) ys).map Prod.snd).map eid) :=
    (sortEntities_perm _).map eid
  rw [hperm.mem_iff]
  rw [map_eid_values (fillIncoming_keyInv (fillBase_keyInv (by simp)))]
  rw [mem_akeys_fillIncoming, mem_akeys_fillBase]
  simp [akeys]
end Canvas

/-- C1 counterexample: the claim "merge is commutative and idempotent
under canonicalization" is false as stated.  With a tombstone on one
side and a strictly newer live entity with the same id on the other,
the argument order decides the winner (an incoming tombstone wins
unconditionally, while an incoming strictly-newer live entity
resurrects), so `merge(a,b) ≠ merge(b,a)`; and a document whose
canonical node set carries two entities with the same id is collapsed
by the merge map, so `merge(a,a) ≠ canonicalize(a)`. -/
theorem C1_counterexample :
    Canvas.mergeCanvasModels tombDoc liveDoc ≠ Canvas.mergeCanvasModels liveDoc tombDoc ∧
    Canvas.mergeCanvasModels dupDoc dupDoc ≠ Canvas.canonicalizeCanvasModel dupDoc := by
  constructor
  · decide
  · decide

/-- C1 (amended): merge is idempotent under canonicalization for every
document whose canonical form has no duplicate top-level keys and no
duplicate entity ids; and merge is commutative for documents that agree
outside their entity sets (equal masked entry lists), have duplicate-free
canonical forms, and whose common ids carry no tombstone opposed to a
strictly newer live entity and no equal-timestamp tie between distinct
entities with identical serialized forms. -/
theorem C1_merge_comm_idem_amended :
    (∀ x : JsVal, (akeys (Canvas.canonKvs x)).Nodup →
      ((Canvas.canonNodes x).map Canvas.eid).Nodup →
      ((Canvas.canonEdges x).map Canvas.eid).Nodup →
      Canvas.mergeCanvasModels x x = Canvas.canonicalizeCanvasModel x)
    ∧ (∀ a b : JsVal,
      Canvas.maskNE (Canvas.canonKvs a) = Canvas.maskNE (Canvas.canonKvs b) →
      (akeys (Canvas.canonKvs a)).Nodup → (akeys (Canvas.canonKvs b)).Nodup →
      ((Canvas.canonNodes a).map Canvas.eid).Nodup →
      ((Canvas.canonNodes b).map Canvas.eid).Nodup →
      ((Canvas.canonEdges a).map Canvas.eid).Nodup →
      ((Canvas.canonEdges b).map Canvas.eid).Nodup →
      (∀ e1 ∈ Canvas.canonNodes a, ∀ e2 ∈ Canvas.canonNodes b,
        Canvas.eid e1 = Canvas.eid e2 → Canvas.pairCond e1 e2) →
      (∀ e1 ∈ Canvas.canonEdges a, ∀ e2 ∈ Canvas.canonEdges b,
        Canvas.eid e1 = Canvas.eid e2 → Canvas.pairCond e1 e2) →
      Canvas.mergeCanvasModels a b = Canvas.mergeCanvasModels b a) :=
  ⟨fun x hk hn he => Canvas.mergeModels_self_aux x hk hn he,
   fun a b hmask hka hkb hna hnb hea heb hsN hsE =>
     Canvas.mergeModels_comm_aux a b hmask hka hkb hna hnb hea heb hsN hsE⟩

/-- Witness for the amended C1 at concrete documents. -/
theorem C1_witness :
    Canvas.mergeCanvasModels liveDoc liveDoc = Canvas.canonicalizeCanvasModel liveDoc ∧
    Canvas.mergeCanvasModels liveDoc liveDoc9 = Canvas.mergeCanvasModels liveDoc9 liveDoc :=
  ⟨C1_merge_comm_idem_amended.1 liveDoc (by decide) (by decide) (by decide),
   C1_merge_comm_idem_amended.2 liveDoc liveDoc9 (by decide) (by decide) (by decide)
     (by decide) (by decide) (by decide) (by decide) (by decide) (by decide)⟩

/-- C10: `resolveEntity` always returns one of its two arguments
unchanged; consequently every entity in the node/edge sets produced by
`mergeCanvasModels` equals, as a whole record, an entity of one of the
two canonicalized inputs, and the output id sets are exactly the union
of the two canonicalized inputs' id sets. -/
theorem C10_resolve_origin_and_id_union :
    (∀ b e : JsVal, Canvas.resolveEntity (some b) e = b ∨ Canvas.resolveEntity (some b) e = e)
    ∧ (∀ a b : JsVal, ∀ e ∈ Canvas.nodesOf (Canvas.mergeCanvasModels a b),
        e ∈ Canvas.canonNodes a ∨ e ∈ Canvas.canonNodes b)
    ∧ (∀ a b : JsVal, ∀ e ∈ Canvas.edgesOf (Canvas.mergeCanvasModels a b),
        e ∈ Canvas.canonEdges a ∨ e ∈ Canvas.canonEdges b)
    ∧ (∀ a b : JsVal, ∀ i : String,
        i ∈ (Canvas.nodesOf (Canvas.mergeCanvasModels a b)).map Canvas.eid ↔
          (i ∈ (Canvas.canonNodes a).map Canvas.eid ∨
            i ∈ (Canvas.canonNodes b).map Canvas.eid))
    ∧ (∀ a b : JsVal, ∀ i : String,
        i ∈ (Canvas.edgesOf (Canvas.mergeCanvasModels a b)).map Canvas.eid ↔
          (i ∈ (Canvas.canonEdges a).map Canvas.eid ∨
            i ∈ (Canvas.canonEdges b).map Canvas.eid)) := by
  refine ⟨Canvas.resolveEntity_mem, ?_, ?_, ?_, ?_⟩
  · intro a b e he
    rw [Canvas.nodesOf_merge] at he
    exact Canvas.mem_mergeEntities he
  · intro a b e he
    rw [Canvas.edgesOf_merge] at he
    exact Canvas.mem_mergeEntities he
  · intro a b i
    rw [Canvas.nodesOf_merge]
    exact Canvas.ids_mergeEntities _ _ i
  · intro a b i
    rw [Canvas.edgesOf_merge]
    exact Canvas.ids_mergeEntities _ _ i

/-- Witness for C10 at concrete documents. -/
theorem C10_witness :
    (Canvas.resolveEntity (some tombEnt) liveEnt = tombEnt ∨
      Canvas.resolveEntity (some tombEnt) liveEnt = liveEnt) ∧
    (liveEnt ∈ Canvas.canonNodes tombDoc ∨ liveEnt ∈ Canvas.canonNodes liveDoc) ∧
    ("x" ∈ (Canvas.canonNodes tombDoc).map Canvas.eid ∨
      "x" ∈ (Canvas.canonNodes liveDoc).map Canvas.eid) :=
  ⟨C10_resolve_origin_and_id_union.1 tombEnt liveEnt,
   C10_resolve_origin_and_id_union.2.1 tombDoc liveDoc liveEnt (by decide),
   (C10_resolve_origin_and_id_union.2.2.2.1 tombDoc liveDoc "x").mp (by decide)⟩

/-- C2: merging the tombstone `(n1, t=100, deleted)` with the live
`(n1, t=90)` yields the tombstone in either argument order; and in
general an incoming tombstone beats a non-deleted base entity in
`resolveEntity` regardless of either timestamp. -/
theorem C2_delete_wins :
    (Canvas.mergeEntities [n1tomb100] [n1live90] = [n1tomb100] ∧
      Canvas.mergeEntities [n1live90] [n1tomb100] = [n1tomb100]) ∧
    (∀ base incoming : JsVal, Canvas.deletedOf incoming = true →
      Canvas.deletedOf base = false →
      Canvas.resolveEntity (some base) incoming = incoming) := by
  refine ⟨⟨by decide, by decide⟩, ?_⟩
  intro base incoming hi hb
  rw [Canvas.resolveEntity_some, hi, hb]
  rw [if_pos (by decide : (true && !false) = true)]

/-- Witness for the general delete-wins rule of C2 at the spec's
concrete entities. -/
theorem C2_witness :
    Canvas.resolveEntity (some n1live90) n1tomb100 = n1tomb100 :=
  C2_delete_wins.2 n1live90 n1tomb100 (by decide) (by decide)

namespace OfflineQueue

theorem countMC_append (q1 q2 : List QueuedOp) (p : String) :
    ((q1 ++ q2).filter (mcSamePath p)).length =
      (q1.filter (mcSamePath p)).length + (q2.filter (mcSamePath p)).length := by
  rw [List.filter_append, List.length_append]

theorem countMC_zero_of_findMCIdx_none {q : List QueuedOp} {p : String}
    (h : findMCIdx p q = none) : (q.filter (mcSamePath p)).length = 0 := by
  induction q with
  | nil => rfl
  | cons o rest ih =>
    by_cases ho : mcSamePath p o
    · simp [findMCIdx, ho] at h
    · simp only [findMCIdx, if_neg ho] at h
      cases hrest : findMCIdx p rest with
      | none =>
        rw [List.filter_cons]
        simp only [ho]
        exact ih hrest
      | some j => rw [hrest] at h; simp at h

theorem mcSamePath_of_mcSamePath {p p' : String} {o : QueuedOp} {c : String}
    (h : mcSamePath p' o = true) :
    mcSamePath p o = mcSamePath p (QueuedOp.modify p' c) := by
  cases o with
  | modify q d =>
    simp only [mcSamePath] at h ⊢
    rw [beq_iff_eq] at h
    rw [h]
  | create q d =>
    simp only [mcSamePath] at h ⊢
    rw [beq_iff_eq] at h
    rw [h]
  | delete q => simp [mcSamePath] at h
  | rename o n => simp [mcSamePath] at h

theorem mcSamePath_create_of_mcSamePath {p p' : String} {o : QueuedOp} {c : String}
    (h : mcSamePath p' o = true) :
    mcSamePath p o = mcSamePath p (QueuedOp.create p' c) := by
  cases o with
  | modify q d =>
    simp only [mcSamePath] at h ⊢
    rw [beq_iff_eq] at h
    rw [h]
  | create q d =>
    simp only [mcSamePath] at h ⊢
    rw [beq_iff_eq] at h
    rw [h]
  | delete q => simp [mcSamePath] at h
  | rename o n => simp [mcSamePath] at h

theorem countMC_set_of_findMCIdx {q : List QueuedOp} {p' : String} {i : Nat}
    (hf : findMCIdx p' q = some i) (op : QueuedOp)
    (hop : ∀ o, mcSamePath p' o = true → ∀ p, mcSamePath p o = mcSamePath p op)
    (p : String) :
    ((q.set i op).filter (mcSamePath p)).length = (q.filter (mcSamePath p)).length := by
  induction q generalizing i with
  | nil => simp [findMCIdx] at hf
  | cons o rest ih =>
    by_cases ho : mcSamePath p' o
    · have hi : i = 0 := by
        simp [findMCIdx, ho] at hf
        exact hf.symm
      subst hi
      rw [List.set_cons_zero, List.filter_cons, List.filter_cons, hop o ho p]
      cases hcase : mcSamePath p op <;> simp [hcase]
    · simp only [findMCIdx, if_neg ho] at hf
      rcases Option.map_eq_some'.mp hf with ⟨j, hj, hij⟩
      subst hij
      rw [List.set_cons_succ, List.filter_cons, List.filter_cons]
      cases mcSamePath p o <;> simp [ih hj]

theorem countMC_enqueue_le (q : List QueuedOp) (op : QueuedOp) (p : String)
    (h : (q.filter (mcSamePath p)).length ≤ 1) :
    (((enqueue q op).filter (mcSamePath p)).length) ≤ 1 := by
  cases op with
  | modify p' c =>
    show ((match findMCIdx p' q with
      | some i => q.set i (QueuedOp.modify p' c)
      | none => q ++ [QueuedOp.modify p' c]).filter (mcSamePath p)).length ≤ 1
    cases hf : findMCIdx p' q with
    | some i =>
      rw [countMC_set_of_findMCIdx hf _ (fun o ho pp => mcSamePath_of_mcSamePath ho)]
      exact h
    | none =>
      rw [countMC_append]
      by_cases hp : mcSamePath p (QueuedOp.modify p' c)
      · have hpp : p' = p := by
          simpa [mcSamePath] using hp
        subst hpp
        rw [countMC_zero_of_findMCIdx_none hf]
        simp [List.filter, hp]
      · simp only [List.filter, hp, Bool.false_eq_true]
        simpa using h
  | create p' c =>
    show ((match findMCIdx p' q with
      | some i => q.set i (QueuedOp.create p' c)
      | none => q ++ [QueuedOp.create p' c]).filter (mcSamePath p)).length ≤ 1
    cases hf : findMCIdx p' q with
    | some i =>
      rw [countMC_set_of_findMCIdx hf _ (fun o ho pp => mcSamePath_create_of_mcSamePath ho)]
      exact h
    | none =>
      rw [countMC_append]
      by_cases hp : mcSamePath p (QueuedOp.create p' c)
      · have hpp : p' = p := by
          simpa [mcSamePath] using hp
        subst hpp
        rw [countMC_zero_of_findMCIdx_none hf]
        simp [List.filter, hp]
      · simp only [List.filter, hp, Bool.false_eq_true]
        simpa using h
  | delete p' =>
    show (((q ++ [QueuedOp.delete p']).filter (mcSamePath p)).length) ≤ 1
    rw [countMC_append]
    simp only [List.filter, mcSamePath]
    simpa using h
  | rename o n =>
    show (((q ++ [QueuedOp.rename o n]).filter (mcSamePath p)).length) ≤ 1
    rw [countMC_append]
    simp only [List.filter, mcSamePath]
    simpa using h

theorem countMC_foldl (seq : List QueuedOp) :
    ∀ q : List QueuedOp, (∀ p, (q.filter (mcSamePath p)).length ≤ 1) →
    ∀ p, ((seq.foldl enqueue q).filter (mcSamePath p)).length ≤ 1 := by
  induction seq with
  | nil => intro q h p; exact h p
  | cons op seq ih =>
    intro q h p
    exact ih (enqueue q op) (fun p' => countMC_enqueue_le q op p' (h p')) p
end OfflineQueue

/-- C5: for every sequence of `enqueue` calls starting from the empty
queue, at most one `modify`/`create` entry exists per path; a new
`modify` for a path replaces the existing `modify`/`create` entry in
its original queue position; `delete` and `rename` are always appended;
and the spec's two concrete scenarios hold. -/
theorem C5_offline_queue_coalescing :
    (∀ (seq : List QueuedOp) (p : String),
      ((seq.foldl OfflineQueue.enqueue []).filter (OfflineQueue.mcSamePath p)).length ≤ 1)
    ∧ (∀ (q : List QueuedOp) (p : String),
        OfflineQueue.enqueue q (.delete p) = q ++ [.delete p])
    ∧ (∀ (q : List QueuedOp) (o n : String),
        OfflineQueue.enqueue q (.rename o n) = q ++ [.rename o n])
    ∧ (∀ (q : List QueuedOp) (p c : String) (i : Nat),
        OfflineQueue.findMCIdx p q = some i →
        OfflineQueue.enqueue q (.modify p c) = q.set i (.modify p c))
    ∧ OfflineQueue.enqueue (OfflineQueue.enqueue [] (.modify "n.md" "a")) (.modify "n.md" "b") =
        [.modify "n.md" "b"]
    ∧ OfflineQueue.enqueue (OfflineQueue.enqueue [] (.modify "n.md" "b")) (.delete "n.md") =
        [.modify "n.md" "b", .delete "n.md"] := by
  refine ⟨?_, fun q p => rfl, fun q o n => rfl, ?_, by decide, by decide⟩
  · intro seq p
    exact OfflineQueue.countMC_foldl seq [] (fun p' => by simp) p
  · intro q p c i hf
    show (match OfflineQueue.findMCIdx p q with
      | some i => q.set i (QueuedOp.modify p c)
      | none => q ++ [QueuedOp.modify p c]) = q.set i (QueuedOp.modify p c)
    rw [hf]

/-- Witness for the in-place replacement rule of C5 at a concrete
queue. -/
theorem C5_witness :
    OfflineQueue.findMCIdx "n.md" [QueuedOp.modify "n.md" "a", QueuedOp.delete "n.md"] = some 0 ∧
    OfflineQueue.enqueue [QueuedOp.modify "n.md" "a", QueuedOp.delete "n.md"]
        (.modify "n.md" "b") =
      [QueuedOp.modify "n.md" "b", QueuedOp.delete "n.md"] :=
  ⟨by decide,
   C5_offline_queue_coalescing.2.2.2.1 [QueuedOp.modify "n.md" "a", QueuedOp.delete "n.md"]
     "n.md" "b" 0 (by decide)⟩

/-- C9 counterexample: the claim "for every path beginning with a
deny-list prefix, `isAllowed` returns false" fails on the
metadata-aware `isAllowed`: `.obsidian/appearance.json` begins with the
deny-listed `.obsidian/` yet is accepted, because the explicit
metadata allow list is consulted before the deny list. -/
theorem C9_counterexample :
    hasStart ".obsidian/appearance.json" ".obsidian/" = true ∧
    Policy.isAllowed ".obsidian/appearance.json" = true := by
  constructor
  · decide
  · decide

/-- C9 (amended): `isAllowed` returns true only for paths matching the
allow list (an allowed extension or an explicitly allow-listed metadata
path); every deny-listed path that is not an allow-listed metadata file
is rejected; allow-listed metadata files are accepted even under deny
prefixes; and the quarantine-era sync-engine variant (which has no
metadata exception) rejects every deny-listed path. -/
theorem C9_allow_deny_amended :
    (∀ p : String, Policy.isAllowed p = true →
      Policy.isMetadataAllowedPath p = true ∨ Policy.hasAllowedExt p = true)
    ∧ (∀ p : String, Policy.underDeny p = true →
        Policy.isMetadataAllowedPath p = false → Policy.isAllowed p = false)
    ∧ (∀ p : String, Policy.isMetadataAllowedPath p = true → Policy.isAllowed p = true)
    ∧ (∀ p : String, PolicySync.underDeny p = true → PolicySync.isAllowed p = false) := by
  refine ⟨?_, ?_, ?_, ?_⟩
  · intro p h
    unfold Policy.isAllowed at h
    by_cases hm : Policy.isMetadataAllowedPath p
    · exact Or.inl hm
    · rw [if_neg (by simpa using hm)] at h
      by_cases hd : Policy.underDeny p
      · rw [if_pos (by simpa using hd)] at h
        exact absurd h (by simp)
      · rw [if_neg (by simpa using hd)] at h
        exact Or.inr h
  · intro p hd hm
    unfold Policy.isAllowed
    rw [if_neg (by simp [hm]), if_pos (by simpa using hd)]
  · intro p hm
    unfold Policy.isAllowed
    rw [if_pos (by simpa using hm)]
  · intro p hd
    unfold PolicySync.isAllowed
    rw [if_pos (by simpa using hd)]

/-- Witness for the amended C9 at concrete paths. -/
theorem C9_witness :
    Policy.isAllowed ".obsidian/workspace.json" = false ∧
    Policy.isAllowed ".obsidian/appearance.json" = true ∧
    PolicySync.isAllowed ".obsidian/appearance.json" = false ∧
    (Policy.isMetadataAllowedPath "notes/plan.md" = true ∨
      Policy.hasAllowedExt "notes/plan.md" = true) :=
  ⟨C9_allow_deny_amended.2.1 ".obsidian/workspace.json" (by decide) (by decide),
   C9_allow_deny_amended.2.2.1 ".obsidian/appearance.json" (by decide),
   C9_allow_deny_amended.2.2.2 ".obsidian/appearance.json" (by decide),
   C9_allow_deny_amended.1 "notes/plan.md" (by decide)⟩

/-- C4: with local files `A ↦ cA, B ↦ cB` and a remote manifest listing
`A` (with `A`'s local hash) and `C`, `initialSync` under the `delete`
strategy pulls `C`, deletes `B`, records `A`'s known state without
transferring its bytes, and returns counts
`updated 0, created 1, deleted 1, quarantined 0`; and for every run the
effect trace is all deletions and quarantine moves first, then all
pulls. -/
theorem C4_initial_sync_reconciliation :
    (∀ (pA pB pC cA cB hz stamp : String) (h : String → String),
      PolicySync.isAllowed pA = true → PolicySync.isAllowed pB = true →
      pA ≠ pB → pA ≠ pC → pB ≠ pC →
      (Sync.initialSync .delete h stamp
          [⟨pA, h cA, 0, 0⟩, ⟨pC, hz, 0, 0⟩] [(pA, cA), (pB, cB)]).actions =
        [Sync.SyncAction.deleteLocal pB, Sync.SyncAction.pull pC] ∧
      (Sync.initialSync .delete h stamp
          [⟨pA, h cA, 0, 0⟩, ⟨pC, hz, 0, 0⟩] [(pA, cA), (pB, cB)]).cached = [(pA, cA)] ∧
      (Sync.initialSync .delete h stamp
          [⟨pA, h cA, 0, 0⟩, ⟨pC, hz, 0, 0⟩] [(pA, cA), (pB, cB)]).result =
        ⟨0, 1, 1, 0, none⟩)
    ∧ (∀ (strategy : Sync.LocalMissingStrategy) (h : String → String)
        (stamp : String) (manifest : List ManifestEntry)
        (locals : List (String × String)), ∃ xs ys,
        (Sync.initialSync strategy h stamp manifest locals).actions = xs ++ ys ∧
        (∀ a ∈ xs, Sync.isPull a = false) ∧ (∀ a ∈ ys, Sync.isPull a = true)) := by
  constructor
  · intro pA pB pC cA cB hz stamp h hA hB hAB hAC hBC
    have h1 : ¬ pB = pA := fun hq => hAB hq.symm
    have h2 : ¬ pA = pC := hAC
    have h3 : ¬ pB = pC := hBC
    have hla : Sync.localAllowed [(pA, cA), (pB, cB)] = [(pA, cA), (pB, cB)] := by
      simp [Sync.localAllowed, hA, hB]
    have hlook1 : Sync.lookupLast [(pA, cA), (pB, cB)] pA = some cA := by
      simp [Sync.lookupLast, jget, h1]
    have hlook2 : Sync.lookupLast [(pA, cA), (pB, cB)] pC = none := by
      simp [Sync.lookupLast, jget, h3, h2]
    have hscan : Sync.scanManifest h [(pA, cA), (pB, cB)]
        [⟨pA, h cA, 0, 0⟩, ⟨pC, hz, 0, 0⟩] = ⟨[pC], [], [(pA, cA)]⟩ := by
      simp only [Sync.scanManifest, List.foldl, hlook1, hlook2]
      simp
    have hmiss : Sync.missingLocals [⟨pA, h cA, 0, 0⟩, ⟨pC, hz, 0, 0⟩]
        [(pA, cA), (pB, cB)] = [(pB, cB)] := by
      simp [Sync.missingLocals, Sync.localAllowed, hA, hB, Sync.hasPath, h1, h2]
      exact ⟨hAB, fun hq => hBC hq.symm⟩
    refine ⟨?_, ?_, ?_⟩
    · show Sync.actionsOf .delete h stamp
        [⟨pA, h cA, 0, 0⟩, ⟨pC, hz, 0, 0⟩] [(pA, cA), (pB, cB)] =
        [Sync.SyncAction.deleteLocal pB, Sync.SyncAction.pull pC]
      rw [Sync.actionsOf]
      rw [hla, hscan, hmiss]
      simp [Sync.toDeleteOf, Sync.toQuarantineOf, Sync.quarantineRootOf]
    · show (Sync.scanManifest h
        (Sync.localAllowed [(pA, cA), (pB, cB)])
        [⟨pA, h cA, 0, 0⟩, ⟨pC, hz, 0, 0⟩]).cached = [(pA, cA)]
      rw [hla, hscan]
    · show (Sync.SyncSummary.mk
        (Sync.scanManifest h (Sync.localAllowed [(pA, cA), (pB, cB)])
          [⟨pA, h cA, 0, 0⟩, ⟨pC, hz, 0, 0⟩]).toUpdate.length
        (Sync.scanManifest h (Sync.localAllowed [(pA, cA), (pB, cB)])
          [⟨pA, h cA, 0, 0⟩, ⟨pC, hz, 0, 0⟩]).toCreate.length
        (Sync.toDeleteOf .delete (Sync.missingLocals
          [⟨pA, h cA, 0, 0⟩, ⟨pC, hz, 0, 0⟩] [(pA, cA), (pB, cB)])).length
        (Sync.toQuarantineOf .delete (Sync.missingLocals
          [⟨pA, h cA, 0, 0⟩, ⟨pC, hz, 0, 0⟩] [(pA, cA), (pB, cB)])).length
        (Sync.quarantineRootOf stamp (Sync.toQuarantineOf .delete (Sync.missingLocals
          [⟨pA, h cA, 0, 0⟩, ⟨pC, hz, 0, 0⟩] [(pA, cA), (pB, cB)])))) =
        ⟨0, 1, 1, 0, none⟩
      rw [hla, hscan, hmiss]
      simp [Sync.toDeleteOf, Sync.toQuarantineOf, Sync.quarantineRootOf]
  · intro strategy h stamp manifest locals
    refine ⟨(Sync.toDeleteOf strategy (Sync.missingLocals manifest locals)).map
        Sync.SyncAction.deleteLocal
      ++ (match Sync.quarantineRootOf stamp
            (Sync.toQuarantineOf strategy (Sync.missingLocals manifest locals)) with
          | some r => (Sync.toQuarantineOf strategy (Sync.missingLocals manifest locals)).map
              (fun p => Sync.SyncAction.quarantineMove p (r ++ "/" ++ p))
          | none => []),
      (Sync.scanManifest h (Sync.localAllowed locals) manifest).toCreate.map
        Sync.SyncAction.pull
      ++ (Sync.scanManifest h (Sync.localAllowed locals) manifest).toUpdate.map
        Sync.SyncAction.pull, ?_, ?_, ?_⟩
    · show Sync.actionsOf strategy h stamp manifest locals = _
      rw [Sync.actionsOf]
      rw [List.append_assoc, List.append_assoc]
    · intro a ha
      rcases List.mem_append.mp ha with ha | ha
      · rcases List.mem_map.mp ha with ⟨p, _, hp⟩
        rw [← hp]; rfl
      · rcases hr : Sync.quarantineRootOf stamp
            (Sync.toQuarantineOf strategy (Sync.missingLocals manifest locals)) with _ | r
        · rw [hr] at ha; simp at ha
        · rw [hr] at ha
          rcases List.mem_map.mp ha with ⟨p, _, hp⟩
          rw [← hp]; rfl
    · intro a ha
      rcases List.mem_append.mp ha with ha | ha
      · rcases List.mem_map.mp ha with ⟨p, _, hp⟩
        rw [← hp]; rfl
      · rcases List.mem_map.mp ha with ⟨p, _, hp⟩
        rw [← hp]; rfl

/-- Witness for C4 at concrete paths, contents and hash function. -/
theorem C4_witness :
    (Sync.initialSync .delete (fun c => c) "stamp"
        [⟨"A.md", "ca", 0, 0⟩, ⟨"C.md", "hz", 0, 0⟩]
        [("A.md", "ca"), ("B.md", "cb")]).actions =
      [Sync.SyncAction.deleteLocal "B.md", Sync.SyncAction.pull "C.md"] ∧
    (Sync.initialSync .delete (fun c => c) "stamp"
        [⟨"A.md", "ca", 0, 0⟩, ⟨"C.md", "hz", 0, 0⟩]
        [("A.md", "ca"), ("B.md", "cb")]).cached = [("A.md", "ca")] ∧
    (Sync.initialSync .delete (fun c => c) "stamp"
        [⟨"A.md", "ca", 0, 0⟩, ⟨"C.md", "hz", 0, 0⟩]
        [("A.md", "ca"), ("B.md", "cb")]).result = ⟨0, 1, 1, 0, none⟩ :=
  C4_initial_sync_reconciliation.1 "A.md" "B.md" "C.md" "ca" "cb" "hz" "stamp"
    (fun c => c) (by decide) (by decide) (by decide) (by decide) (by decide)

namespace Sync

theorem scanStepSkip_skip (hash : String → String) (localFiles : List (String × String))
    (skip : List String) (acc : ScanAcc) (entry : ManifestEntry)
    (hs : entry.path ∈ skip) :
    scanStepSkip hash localFiles skip acc entry = acc := by
  simp [scanStepSkip, hs]

theorem scanStepSkip_create (hash : String → String) (localFiles : List (String × String))
    (skip : List String) (acc : ScanAcc) (entry : ManifestEntry)
    (hs : entry.path ∉ skip) (hlk : lookupLast localFiles entry.path = none) :
    scanStepSkip hash localFiles skip acc entry
      = { acc with toCreate := acc.toCreate ++ [entry.path] } := by
  simp [scanStepSkip, hs, hlk]

theorem scanStepSkip_update (hash : String → String) (localFiles : List (String × String))
    (skip : List String) (acc : ScanAcc) (entry : ManifestEntry) (content : String)
    (hs : entry.path ∉ skip) (hlk : lookupLast localFiles entry.path = some content)
    (hh : hash content ≠ entry.hash) :
    scanStepSkip hash localFiles skip acc entry
      = { acc with toUpdate := acc.toUpdate ++ [entry.path] } := by
  simp [scanStepSkip, hs, hlk, hh]

theorem scanStepSkip_cached (hash : String → String) (localFiles : List (String × String))
    (skip : List String) (acc : ScanAcc) (entry : ManifestEntry) (content : String)
    (hs : entry.path ∉ skip) (hlk : lookupLast localFiles entry.path = some content)
    (hh : ¬hash content ≠ entry.hash) :
    scanStepSkip hash localFiles skip acc entry
      = { acc with cached := acc.cached ++ [(entry.path, content)] } := by
  simp [scanStepSkip, hs, hlk]
  exact not_not.mp hh

theorem scanManifestSkip_inv (hash : String → String)
    (localFiles : List (String × String)) (manifest : List ManifestEntry)
    (skip : List String) (p : String) (hp : p ∈ skip) :
    p ∉ (scanManifestSkip hash localFiles manifest skip).toCreate ∧
    p ∉ (scanManifestSkip hash localFiles manifest skip).toUpdate ∧
    ∀ c ∈ (scanManifestSkip hash localFiles manifest skip).cached, c.1 ≠ p := by
  have key : ∀ (m : List ManifestEntry) (acc : ScanAcc),
      (p ∉ acc.toCreate ∧ p ∉ acc.toUpdate ∧ ∀ c ∈ acc.cached, c.1 ≠ p) →
      p ∉ (m.foldl (scanStepSkip hash localFiles skip) acc).toCreate ∧
      p ∉ (m.foldl (scanStepSkip hash localFiles skip) acc).toUpdate ∧
      ∀ c ∈ (m.foldl (scanStepSkip hash localFiles skip) acc).cached, c.1 ≠ p := by
    intro m
    induction m with
    | nil => intro acc h; exact h
    | cons entry rest ih =>
      intro acc h
      rw [List.foldl_cons]
      refine ih _ ?_
      by_cases hskip : entry.path ∈ skip
      · rw [scanStepSkip_skip hash localFiles skip acc entry hskip]
        exact h
      · have hne : entry.path ≠ p := fun hq => hskip (hq ▸ hp)
        cases hlk : lookupLast localFiles entry.path with
        | none =>
          rw [scanStepSkip_create hash localFiles skip acc entry hskip hlk]
          refine ⟨?_, h.2.1, h.2.2⟩
          intro hmem
          rcases List.mem_append.mp hmem with hmem | hmem
          · exact h.1 hmem
          · rw [List.mem_singleton] at hmem
            exact hne hmem.symm
        | some content =>
          by_cases hh : hash content ≠ entry.hash
          · rw [scanStepSkip_update hash localFiles skip acc entry content hskip hlk hh]
            refine ⟨h.1, ?_, h.2.2⟩
            intro hmem
            rcases List.mem_append.mp hmem with hmem | hmem
            · exact h.2.1 hmem
            · rw [List.mem_singleton] at hmem
              exact hne hmem.symm
          · rw [scanStepSkip_cached hash localFiles skip acc entry content hskip hlk hh]
            refine ⟨h.1, h.2.1, ?_⟩
            intro c hmem
            rcases List.mem_append.mp hmem with hmem | hmem
            · exact h.2.2 c hmem
            · rw [List.mem_singleton] at hmem
              rw [hmem]
              exact hne
  exact key manifest ⟨[], [], []⟩ ⟨by simp, by simp, by simp⟩

theorem missingLocalsSkip_not_skip (manifest : List ManifestEntry)
    (locals : List (String × String)) (skip : List String) (p : String) (hp : p ∈ skip) :
    ∀ f ∈ missingLocalsSkip manifest locals skip, f.1 ≠ p := by
  intro f hf
  rcases List.mem_filter.mp hf with ⟨_, hcond⟩
  intro hq
  rw [hq, if_pos hp] at hcond
  exact Bool.false_ne_true hcond
end Sync

/-- C6: Modelled from the spec: `initialSync` accepts an optional skip set of
paths, and every path in the skip set is excluded from the reconciliation
pass — a skipped path is neither pulled, nor deleted or quarantined, nor has
its known state recorded, even when the remote manifest or the local store
lists it. -/
theorem C6_initial_sync_skip (strategy : Sync.LocalMissingStrategy)
    (hash : String → String) (stamp : String) (manifest : List ManifestEntry)
    (locals : List (String × String)) (skip : List String) (p : String)
    (hp : p ∈ skip) :
    (∀ a ∈ (Sync.initialSyncSkip strategy hash stamp manifest locals skip).actions,
      Sync.actionPath a ≠ p) ∧
    (∀ c ∈ (Sync.initialSyncSkip strategy hash stamp manifest locals skip).cached,
      c.1 ≠ p) ∧
    p ∉ (Sync.initialSyncSkip strategy hash stamp manifest locals skip).toDelete ∧
    p ∉ (Sync.initialSyncSkip strategy hash stamp manifest locals skip).toQuarantine := by
  have hscan := Sync.scanManifestSkip_inv hash (Sync.localAllowed locals) manifest skip p hp
  have hmiss : ∀ f ∈ Sync.missingLocalsSkip manifest locals skip, f.1 ≠ p :=
    Sync.missingLocalsSkip_not_skip manifest locals skip p hp
  have hdel : ∀ q ∈ Sync.toDeleteOf strategy (Sync.missingLocalsSkip manifest locals skip),
      q ≠ p := by
    intro q hq
    unfold Sync.toDeleteOf at hq
    split at hq
    · rcases List.mem_map.mp hq with ⟨f, hf, hfq⟩
      exact hfq ▸ hmiss f hf
    · exact absurd hq (List.not_mem_nil q)
  have hquar : ∀ q ∈ Sync.toQuarantineOf strategy (Sync.missingLocalsSkip manifest locals skip),
      q ≠ p := by
    intro q hq
    unfold Sync.toQuarantineOf at hq
    split at hq
    · rcases List.mem_map.mp hq with ⟨f, hf, hfq⟩
      exact hfq ▸ hmiss f hf
    · exact absurd hq (List.not_mem_nil q)
  refine ⟨?_, ?_, ?_, ?_⟩
  · intro a ha
    simp only [Sync.initialSyncSkip, Sync.actionsOfSkip] at ha
    rcases List.mem_append.mp ha with ha | ha
    · rcases List.mem_append.mp ha with ha | ha
      · rcases List.mem_append.mp ha with ha | ha
        · rcases List.mem_map.mp ha with ⟨q, hq, hqa⟩
          rw [← hqa]
          exact hdel q hq
        · cases hroot : Sync.quarantineRootOf stamp
              (Sync.toQuarantineOf strategy (Sync.missingLocalsSkip manifest locals skip)) with
          | none =>
            rw [hroot] at ha
            exact absurd ha (List.not_mem_nil a)
          | some r =>
            rw [hroot] at ha
            rcases List.mem_map.mp ha with ⟨q, hq, hqa⟩
            rw [← hqa]
            exact hquar q hq
      · rcases List.mem_map.mp ha with ⟨q, hq, hqa⟩
        rw [← hqa]
        intro hqp
        exact hscan.1 (hqp ▸ hq)
    · rcases List.mem_map.mp ha with ⟨q, hq, hqa⟩
      rw [← hqa]
      intro hqp
      exact hscan.2.1 (hqp ▸ hq)
  · intro c hc
    exact hscan.2.2 c hc
  · intro hq
    exact hdel p hq rfl
  · intro hq
    exact hquar p hq rfl

theorem C6_witness :
    (∀ a ∈ (Sync.initialSyncSkip .delete (fun c => c) "st"
        [⟨"S.md", "S", 0, 0⟩, ⟨"C.md", "c", 0, 0⟩]
        [("S.md", "x"), ("B.md", "y")] ["S.md"]).actions,
      Sync.actionPath a ≠ "S.md") ∧
    (∀ c ∈ (Sync.initialSyncSkip .delete (fun c => c) "st"
        [⟨"S.md", "S", 0, 0⟩, ⟨"C.md", "c", 0, 0⟩]
        [("S.md", "x"), ("B.md", "y")] ["S.md"]).cached,
      c.1 ≠ "S.md") ∧
    "S.md" ∉ (Sync.initialSyncSkip .delete (fun c => c) "st"
        [⟨"S.md", "S", 0, 0⟩, ⟨"C.md", "c", 0, 0⟩]
        [("S.md", "x"), ("B.md", "y")] ["S.md"]).toDelete ∧
    "S.md" ∉ (Sync.initialSyncSkip .delete (fun c => c) "st"
        [⟨"S.md", "S", 0, 0⟩, ⟨"C.md", "c", 0, 0⟩]
        [("S.md", "x"), ("B.md", "y")] ["S.md"]).toQuarantine :=
  C6_initial_sync_skip .delete (fun c => c) "st"
    [⟨"S.md", "S", 0, 0⟩, ⟨"C.md", "c", 0, 0⟩]
    [("S.md", "x"), ("B.md", "y")] ["S.md"] "S.md" (by decide)

/-- C3: in the Write Interceptor's modify handler, for a connected
transport and an allowed, unsuppressed, non-collab path: a `CONFLICT`
rejection makes the handler pull the latest remote content — the file
ends up holding the remote content (recorded as known state), not the
cached content — while any other failure reverts the file to the last
recorded known-state content rather than the attempted new content. -/
theorem C3_conflict_pulls_failure_reverts
    (st : WI.WIState) (collab suppressed : List String)
    (p content rc rh cached : String)
    (hsup : suppressed.contains p = false)
    (hall : Policy.isAllowed p = true)
    (hcol : collab.contains p = false)
    (hread : jget st.files p = some content)
    (hcache : jget st.fileCache p = some cached) :
    (jget (WI.onModify true collab suppressed .conflict (some (rc, rh)) p st).files p
        = some rc ∧
     jget (WI.onModify true collab suppressed .conflict (some (rc, rh)) p st).fileCache p
        = some rc ∧
     jget (WI.onModify true collab suppressed .conflict (some (rc, rh)) p st).fileHashCache p
        = some rh) ∧
    jget (WI.onModify true collab suppressed .failure (some (rc, rh)) p st).files p
        = some cached := by
  have hsup' : p ∉ suppressed := by simpa using hsup
  have hcol' : p ∉ collab := by simpa using hcol
  have hconf : WI.onModify true collab suppressed .conflict (some (rc, rh)) p st
      = WI.pullFile (some (rc, rh)) p st := by
    simp [WI.onModify, hsup', hall, hcol', hread]
  have hfail : WI.onModify true collab suppressed .failure (some (rc, rh)) p st
      = WI.revertFile p st := by
    simp [WI.onModify, hsup', hall, hcol', hread]
  have hrev : WI.revertFile p st = { st with files := jset st.files p cached } := by
    unfold WI.revertFile
    rw [hcache]
  refine ⟨⟨?_, ?_, ?_⟩, ?_⟩
  · rw [hconf]
    exact jget_jset_self st.files p rc
  · rw [hconf]
    exact jget_jset_self st.fileCache p rc
  · rw [hconf]
    exact jget_jset_self st.fileHashCache p rh
  · rw [hfail, hrev]
    exact jget_jset_self st.files p cached

theorem C3_witness :
    (jget (WI.onModify true [] [] .conflict (some ("remote", "rh")) "a.md"
        ⟨[("a.md", "new")], [("a.md", "old")], [("a.md", "h0")]⟩).files "a.md"
        = some "remote" ∧
     jget (WI.onModify true [] [] .conflict (some ("remote", "rh")) "a.md"
        ⟨[("a.md", "new")], [("a.md", "old")], [("a.md", "h0")]⟩).fileCache "a.md"
        = some "remote" ∧
     jget (WI.onModify true [] [] .conflict (some ("remote", "rh")) "a.md"
        ⟨[("a.md", "new")], [("a.md", "old")], [("a.md", "h0")]⟩).fileHashCache "a.md"
        = some "rh") ∧
    jget (WI.onModify true [] [] .failure (some ("remote", "rh")) "a.md"
        ⟨[("a.md", "new")], [("a.md", "old")], [("a.md", "h0")]⟩).files "a.md"
        = some "old" :=
  C3_conflict_pulls_failure_reverts
    ⟨[("a.md", "new")], [("a.md", "old")], [("a.md", "h0")]⟩ [] []
    "a.md" "new" "remote" "rh" "old"
    (by decide) (by decide) (by decide) (by decide) (by decide)

/-- C7: in the offline-queue-era Write Interceptor's modify handler,
when the transport is disconnected and the path is allowed, not
suppressed and not owned by the live-editing session, the handler
reads the file's current content and enqueues a `Modify` operation
carrying that path and content onto the offline queue; nothing else in
the state changes. -/
theorem C7_offline_enqueues_modify
    (st : WIQ.WIQState) (collab suppressed : List String) (q : List QueuedOp)
    (p content : String)
    (hsup : suppressed.contains p = false)
    (hall : PolicySync.isAllowed p = true)
    (hcol : collab.contains p = false)
    (hq : st.queue = some q)
    (hread : jget st.files p = some content) :
    WIQ.onModify false collab suppressed true p st
      = { st with queue := some (OfflineQueue.enqueue q (.modify p content)) } := by
  have hsup' : p ∉ suppressed := by simpa using hsup
  have hcol' : p ∉ collab := by simpa using hcol
  simp [WIQ.onModify, hsup', hall, hcol', hq, hread]

theorem C7_witness :
    WIQ.onModify false [] [] true "a.md"
      ⟨[("a.md", "draft")], [("a.md", "old")], some [QueuedOp.delete "b.md"]⟩
      = { files := [("a.md", "draft")], fileCache := [("a.md", "old")],
          queue := some [QueuedOp.delete "b.md", QueuedOp.modify "a.md" "draft"] } := by
  have h := C7_offline_enqueues_modify
    ⟨[("a.md", "draft")], [("a.md", "old")], some [QueuedOp.delete "b.md"]⟩ [] []
    [QueuedOp.delete "b.md"] "a.md" "draft"
    (by decide) (by decide) (by decide) (by decide) (by decide)
  rw [h]
  decide
